import Mathlib

/-!
Shallow embedding of `student_code.py`: a directed-graph library with
node/edge storage (`SortableDigraph`), DFS/BFS traversal
(`TraversableDigraph`), Kahn topological sorting (`top_sort`) and a
cycle-guarded `DAG.add_edge` built on a stack-based reachability probe
(`_has_path`).

Python dicts are modelled as insertion-ordered association lists over `Nat`
keys (update keeps the position of an existing key, a new key is appended at
the end).  Python `None` for node values and edge weights is `Option.none`.
`KeyError` is the spec's `NotFound`; `ValueError` is `CycleDetected`.
Loops whose termination depends on visited-marking are given explicit fuel;
the chosen fuel is proved sufficient (the result is stable under any larger
fuel).
-/

namespace StudentCode

/-- Node values and edge weights: Python's optional values. -/
abbrev Val := Option Nat

/-- Dict lookup: first (unique) binding of `key`. -/
def findA {β : Type} : List (Nat × β) → Nat → Option β
  | [], _ => none
  | (k, v) :: rest, key => if k = key then some v else findA rest key

/-- Dict membership test (`key in d`). -/
def containsA {β : Type} (l : List (Nat × β)) (key : Nat) : Bool :=
  (findA l key).isSome

/-- Dict update `d[key] = v`: overwrite in place, else append at the end. -/
def insertA {β : Type} : List (Nat × β) → Nat → β → List (Nat × β)
  | [], key, v => [(key, v)]
  | (k, w) :: rest, key, v =>
    if k = key then (k, v) :: rest else (k, w) :: insertA rest key v

/-- Dict key list, in insertion order (`d.keys()`). -/
def keysA {β : Type} (l : List (Nat × β)) : List Nat :=
  l.map Prod.fst

/-- Error taxonomy: `KeyError` ↦ `NotFound`, `ValueError` ↦ `CycleDetected`. -/
inductive GError where
  | NotFound : GError
  | CycleDetected : GError
deriving DecidableEq, Repr

/-- State of a `SortableDigraph`: `self.nodes` (name → value) and
`self.edges` (name → (child → weight)). -/
structure Graph where
  nodes : List (Nat × Val)
  edges : List (Nat × List (Nat × Val))
deriving DecidableEq, Repr

/-- `SortableDigraph.__init__`. -/
def Graph.empty : Graph := ⟨[], []⟩

/-- `add_node(name, value)`: upsert the value; ensure an adjacency entry. -/
def add_node (g : Graph) (name : Nat) (value : Val) : Graph :=
  { nodes := insertA g.nodes name value
    edges := if containsA g.edges name then g.edges else insertA g.edges name [] }

/-- `SortableDigraph.add_edge(u, v, edge_weight)`:
`add_node(u); add_node(v); edges[u][v] = edge_weight`. -/
def add_edge (g : Graph) (u v : Nat) (w : Val) : Graph :=
  let g1 := add_node (add_node g u none) v none
  { g1 with edges := insertA g1.edges u (insertA ((findA g1.edges u).getD []) v w) }

/-- `get_nodes()`: the node names. -/
def get_nodes (g : Graph) : List Nat :=
  keysA g.nodes

/-- `get_node_value(name)`: stored value, or `KeyError` (`NotFound`). -/
def get_node_value (g : Graph) (name : Nat) : Except GError Val :=
  match findA g.nodes name with
  | none => .error .NotFound
  | some v => .ok v

/-- `get_edge_weight(u, v)`: stored weight, or `KeyError` (`NotFound`) when
`u not in edges or v not in edges[u]`. -/
def get_edge_weight (g : Graph) (u v : Nat) : Except GError Val :=
  match findA g.edges u with
  | none => .error .NotFound
  | some inner =>
    match findA inner v with
    | none => .error .NotFound
    | some w => .ok w

/-- Raw key list of `self.edges.get(name, {})`. -/
def succKeys (g : Graph) (name : Nat) : List Nat :=
  keysA ((findA g.edges name).getD [])

/-- `successors(name)`: `sorted(self.edges[name].keys())`, `[]` if absent. -/
def successors (g : Graph) (name : Nat) : List Nat :=
  (succKeys g name).insertionSort (· ≤ ·)

/-- `predecessors(name)`: sorted parents that have `name` as a child. -/
def predecessors (g : Graph) (name : Nat) : List Nat :=
  (keysA (g.edges.filter (fun p => containsA p.2 name))).insertionSort (· ≤ ·)

/-- One directed edge `a → b` is stored (an entry for `b` exists in
`edges[a]`). -/
def edgeB (g : Graph) (a b : Nat) : Bool :=
  (findA ((findA g.edges a).getD []) b).isSome

/-- Propositional form of `edgeB`. -/
def EdgeP (g : Graph) (a b : Nat) : Prop :=
  edgeB g a b = true

instance (g : Graph) (a b : Nat) : Decidable (EdgeP g a b) := by
  unfold EdgeP; infer_instance

/-- Path of length ≥ 0 over the stored edges. -/
def Reach (g : Graph) : Nat → Nat → Prop :=
  Relation.ReflTransGen (EdgeP g)

/-- The graph holds a directed cycle (closed walk of length ≥ 1). -/
def HasCycle (g : Graph) : Prop :=
  ∃ x, Relation.TransGen (EdgeP g) x x

/-- Every stored edge target, as a finite set (the only identifiers the
visited-marking loops can ever insert). -/
def targetsF (g : Graph) : Finset Nat :=
  ((g.edges.map (fun p => keysA p.2)).flatten).toFinset

/-- Out-degree as stored: number of entries of `edges.get(n, {})`. -/
def outdegA (g : Graph) (n : Nat) : Nat :=
  ((findA g.edges n).getD []).length

/-- Step potential of a visited-marking loop: pending work plus one unit and
one out-degree for every not-yet-visited identifier of `univ`. -/
def potGen (g : Graph) (univ : Finset Nat) (pending : Nat) (visited : Finset Nat) : Nat :=
  pending + Finset.sum (univ \ visited) (fun n => outdegA g n + 1)

/-- Body of `TraversableDigraph.dfs`: process a worklist of neighbour names;
a fresh one is marked visited, appended to the order and its sorted
successors are visited recursively before the rest of the worklist
(`_visit`).  `fuel` only bounds the number of processing steps. -/
def dfsGo (g : Graph) : Nat → List Nat → Finset Nat × List Nat → Finset Nat × List Nat
  | 0, _, st => st
  | _ + 1, [], st => st
  | fuel + 1, nbr :: rest, st =>
    if nbr ∈ st.1 then dfsGo g fuel rest st
    else dfsGo g fuel rest (dfsGo g fuel (successors g nbr) (insert nbr st.1, st.2 ++ [nbr]))

/-- Fuel sufficient for `dfsGo` from `start` (proved sufficient below). -/
def dfsFuel (g : Graph) (start : Nat) : Nat :=
  potGen g (targetsF g) (successors g start).length ∅ + 1

/-- `dfs(start)`: preorder of `_visit(start)` with `visited = set()`,
`order = []`; `start` itself is not pre-seeded. -/
def dfs (g : Graph) (start : Nat) : List Nat :=
  (dfsGo g (dfsFuel g start) (successors g start) (∅, [])).2

/-- Loop body step of `bfs`: `if nbr not in visited: visited.add(nbr);
queue.append(nbr)`. -/
def enqueueFresh (acc : List Nat × Finset Nat) (nbr : Nat) : List Nat × Finset Nat :=
  if nbr ∈ acc.2 then acc else (acc.1 ++ [nbr], insert nbr acc.2)

/-- Loop of `TraversableDigraph.bfs`: dequeue a node, yield it, then enqueue
its sorted successors that are not yet visited, marking them visited at
enqueue time. -/
def bfsLoop (g : Graph) : Nat → List Nat → Finset Nat → List Nat → List Nat
  | 0, _, _, out => out
  | _ + 1, [], _, out => out
  | fuel + 1, node :: queue, visited, out =>
    let st := (successors g node).foldl enqueueFresh (queue, visited)
    bfsLoop g fuel st.1 st.2 (out ++ [node])

/-- Fuel sufficient for `bfs` from `start` (proved sufficient below). -/
def bfsFuel (g : Graph) (start : Nat) : Nat :=
  potGen g (targetsF g) (successors g start).length ∅ + 1

/-- Seeding step of `bfs`: `queue.append(nbr); visited.add(nbr)` — with no
membership check. -/
def seedStep (acc : List Nat × Finset Nat) (nbr : Nat) : List Nat × Finset Nat :=
  (acc.1 ++ [nbr], insert nbr acc.2)

/-- The seeded frontier of `bfs(start)`: `visited = {start}`, then every
sorted successor of `start` is enqueued and marked. -/
def bfsSeed (g : Graph) (start : Nat) : List Nat × Finset Nat :=
  (successors g start).foldl seedStep ([], {start})

/-- `bfs(start)`, fully consumed: seed the frontier, then drain the queue. -/
def bfs (g : Graph) (start : Nat) : List Nat :=
  bfsLoop g (bfsFuel g start) (bfsSeed g start).1 (bfsSeed g start).2 []

/-- Loop of `DAG._has_path`: pop the top of the stack; the goal answers
`true`; an unvisited node is marked and its raw successor keys are pushed
(Python appends them in key order and pops from the end, which is pushing
them reversed onto the front of a top-first stack). -/
def hasPathLoop (g : Graph) (goal : Nat) : Nat → List Nat → Finset Nat → Bool
  | 0, _, _ => false
  | _ + 1, [], _ => false
  | fuel + 1, node :: stack, visited =>
    if node = goal then true
    else if node ∈ visited then hasPathLoop g goal fuel stack visited
    else hasPathLoop g goal fuel ((succKeys g node).reverse ++ stack) (insert node visited)

/-- Fuel sufficient for `_has_path` from `start` (proved sufficient below). -/
def hpFuel (g : Graph) (start : Nat) : Nat :=
  potGen g (insert start (targetsF g)) 1 ∅ + 1

/-- `DAG._has_path(start, goal)`: stack `[start]`, empty visited set. -/
def has_path (g : Graph) (start goal : Nat) : Bool :=
  hasPathLoop g goal (hpFuel g start) [start] ∅

/-- `DAG.add_edge(u, v, edge_weight)`: `add_node(u); add_node(v)` first, then
refuse with `ValueError` (`CycleDetected`) when `_has_path(v, u)`, else
commit `edges[u][v] = edge_weight`.  Returns the state after the call
together with the raised error, if any. -/
def DAG.add_edge (g : Graph) (u v : Nat) (w : Val) : Graph × Option GError :=
  let g1 := add_node (add_node g u none) v none
  if has_path g1 v u then
    (g1, some .CycleDetected)
  else
    ({ g1 with edges := insertA g1.edges u (insertA ((findA g1.edges u).getD []) v w) },
      none)

/-- `indegree[child] += 1` (the child is a node key in every reachable
state, so the fallback branch is never taken there). -/
def bumpA (l : List (Nat × Int)) (k : Nat) : List (Nat × Int) :=
  insertA l k ((findA l k).getD 0 + 1)

/-- `indegree = {node: 0 for node in self.nodes}` then
`for parent, children in edges: for child in children: indegree[child] += 1`. -/
def initIndeg (g : Graph) : List (Nat × Int) :=
  g.edges.foldl (fun ind p => p.2.foldl (fun ind2 q => bumpA ind2 q.1) ind)
    (g.nodes.map (fun p => (p.1, (0 : Int))))

/-- Body of the Kahn loop for one successor: `indegree[child] -= 1;
if indegree[child] == 0: queue.append(child)`. -/
def kahnStep (acc : List Nat × List (Nat × Int)) (child : Nat) :
    List Nat × List (Nat × Int) :=
  let d := (findA acc.2 child).getD 0 - 1
  (if d = 0 then acc.1 ++ [child] else acc.1, insertA acc.2 child d)

/-- Kahn loop: pop the queue head, append it to the order, decrement each
sorted successor's indegree and enqueue those that reach zero. -/
def kahnLoop (g : Graph) : Nat → List Nat → List (Nat × Int) → List Nat → List Nat
  | 0, _, _, order => order
  | _ + 1, [], _, order => order
  | fuel + 1, node :: queue, indeg, order =>
    let st := (successors g node).foldl kahnStep (queue, indeg)
    kahnLoop g fuel st.1 st.2 (order ++ [node])

/-- `top_sort()`: Kahn's algorithm; seed the queue with the zero-indegree
nodes in ascending order; raise `ValueError` (`CycleDetected`) when the
order misses nodes. -/
def top_sort (g : Graph) : Except GError (List Nat) :=
  let indeg := initIndeg g
  let queue := (keysA (indeg.filter (fun p => p.2 == 0))).insertionSort (· ≤ ·)
  let order := kahnLoop g (g.nodes.length + 1) queue indeg []
  if order.length = g.nodes.length then .ok order else .error .CycleDetected

/-- Keys of an association list are pairwise distinct (true of every real
Python dict). -/
def NodupKeys {β : Type} (l : List (Nat × β)) : Prop :=
  (keysA l).Nodup

/-- Well-formedness of a graph state: dict keys are distinct, the adjacency
dict has exactly the node names as keys, and every stored edge target is a
node.  Every state reachable through the public operations satisfies it. -/
def Wf (g : Graph) : Prop :=
  NodupKeys g.nodes ∧ NodupKeys g.edges ∧
  (∀ p ∈ g.edges, NodupKeys p.2) ∧
  (∀ n ∈ keysA g.edges, containsA g.nodes n = true) ∧
  (∀ n ∈ keysA g.nodes, containsA g.edges n = true) ∧
  (∀ p ∈ g.edges, ∀ q ∈ p.2, containsA g.nodes q.1 = true)

instance (g : Graph) : Decidable (Wf g) := by
  unfold Wf NodupKeys; infer_instance

/-! ### Association-list lemmas -/

theorem keysA_nil {β : Type} : keysA ([] : List (Nat × β)) = [] := rfl

theorem keysA_cons {β : Type} (a : Nat) (b : β) (rest : List (Nat × β)) :
    keysA ((a, b) :: rest) = a :: keysA rest := rfl

theorem findA_isSome_iff {β : Type} (l : List (Nat × β)) (k : Nat) :
    (findA l k).isSome = true ↔ k ∈ keysA l := by
  induction l with
  | nil => simp [findA, keysA_nil]
  | cons p rest ih =>
    obtain ⟨a, b⟩ := p
    rw [keysA_cons]
    by_cases h : a = k
    · subst h; simp [findA]
    · simp only [findA, if_neg h, List.mem_cons, ih]
      constructor
      · exact Or.inr
      · rintro (rfl | hk)
        · exact absurd rfl h
        · exact hk

theorem containsA_iff {β : Type} (l : List (Nat × β)) (k : Nat) :
    containsA l k = true ↔ k ∈ keysA l := by
  rw [containsA, findA_isSome_iff]

theorem findA_eq_none_iff {β : Type} (l : List (Nat × β)) (k : Nat) :
    findA l k = none ↔ k ∉ keysA l := by
  rw [← findA_isSome_iff]
  rcases h : findA l k with _ | v <;> simp [h]

theorem findA_insertA_self {β : Type} (l : List (Nat × β)) (k : Nat) (v : β) :
    findA (insertA l k v) k = some v := by
  induction l with
  | nil => simp [insertA, findA]
  | cons p rest ih =>
    obtain ⟨a, b⟩ := p
    by_cases h : a = k <;> simp [insertA, findA, h, ih]

theorem findA_insertA_ne {β : Type} (l : List (Nat × β)) (k k' : Nat) (v : β)
    (hne : k ≠ k') : findA (insertA l k v) k' = findA l k' := by
  induction l with
  | nil => simp [insertA, findA, hne]
  | cons p rest ih =>
    obtain ⟨a, b⟩ := p
    by_cases h : a = k
    · subst h; simp [insertA, findA, hne]
    · simp [insertA, findA, h, ih]

theorem keysA_insertA_of_mem {β : Type} (l : List (Nat × β)) (k : Nat) (v : β)
    (hk : k ∈ keysA l) : keysA (insertA l k v) = keysA l := by
  induction l with
  | nil => simp [keysA_nil] at hk
  | cons p rest ih =>
    obtain ⟨a, b⟩ := p
    by_cases h : a = k
    · subst h; simp [insertA, keysA_cons]
    · rw [keysA_cons] at hk
      rcases List.mem_cons.1 hk with rfl | hk'
      · exact absurd rfl h
      · simp [insertA, keysA_cons, h, ih hk']

theorem keysA_insertA_of_not_mem {β : Type} (l : List (Nat × β)) (k : Nat) (v : β)
    (hk : k ∉ keysA l) : keysA (insertA l k v) = keysA l ++ [k] := by
  induction l with
  | nil => simp [insertA, keysA_nil, keysA_cons]
  | cons p rest ih =>
    obtain ⟨a, b⟩ := p
    rw [keysA_cons] at hk
    simp only [List.mem_cons, not_or] at hk
    simp [insertA, keysA_cons, Ne.symm hk.1, ih hk.2]

theorem mem_keysA_insertA {β : Type} (l : List (Nat × β)) (k m : Nat) (v : β) :
    m ∈ keysA (insertA l k v) ↔ m = k ∨ m ∈ keysA l := by
  by_cases hk : k ∈ keysA l
  · rw [keysA_insertA_of_mem l k v hk]
    constructor
    · exact Or.inr
    · rintro (rfl | hm)
      · exact hk
      · exact hm
  · rw [keysA_insertA_of_not_mem l k v hk]
    simp [or_comm]

theorem nodupKeys_insertA {β : Type} (l : List (Nat × β)) (k : Nat) (v : β)
    (h : NodupKeys l) : NodupKeys (insertA l k v) := by
  by_cases hk : k ∈ keysA l
  · rwa [NodupKeys, keysA_insertA_of_mem l k v hk]
  · rw [NodupKeys, keysA_insertA_of_not_mem l k v hk]
    simpa [NodupKeys, List.nodup_append] using ⟨h, hk⟩

theorem mem_of_findA_eq_some {β : Type} {l : List (Nat × β)} {k : Nat} {v : β}
    (h : findA l k = some v) : (k, v) ∈ l := by
  induction l with
  | nil => simp [findA] at h
  | cons p rest ih =>
    obtain ⟨a, b⟩ := p
    by_cases ha : a = k
    · subst ha; simp [findA] at h; simp [h]
    · simp [findA, ha] at h
      exact List.mem_cons_of_mem _ (ih h)

/-! ### Basic effect lemmas for `add_node`, `add_edge`, `DAG.add_edge` -/

theorem nodes_add_node (g : Graph) (n : Nat) (v : Val) :
    (add_node g n v).nodes = insertA g.nodes n v := rfl

theorem findA_edges_add_node (g : Graph) (n : Nat) (v : Val) (a : Nat) :
    findA (add_node g n v).edges a =
      if a = n then some ((findA g.edges n).getD []) else findA g.edges a := by
  show findA (if containsA g.edges n then g.edges else insertA g.edges n []) a = _
  by_cases hc : containsA g.edges n = true
  · rcases Option.isSome_iff_exists.1 hc with ⟨inner, hin⟩
    by_cases ha : a = n <;> simp [hc, ha, hin]
  · have hnone : findA g.edges n = none := by
      rcases h : findA g.edges n with _ | inner
      · rfl
      · exact absurd (by simp [containsA, h]) hc
    by_cases ha : a = n
    · subst ha; simp [hc, hnone, findA_insertA_self]
    · simp [hc, findA_insertA_ne g.edges n a [] (fun h => ha h.symm), ha]

/-- The adjacency dict of `a`: `self.edges.get(a, {})`. -/
def innerOf (g : Graph) (a : Nat) : List (Nat × Val) :=
  (findA g.edges a).getD []

theorem succKeys_eq_keys_innerOf (g : Graph) (a : Nat) :
    succKeys g a = keysA (innerOf g a) := rfl

theorem edgeB_eq_findA_innerOf (g : Graph) (a b : Nat) :
    edgeB g a b = (findA (innerOf g a) b).isSome := rfl

theorem innerOf_add_node (g : Graph) (n : Nat) (v : Val) (a : Nat) :
    innerOf (add_node g n v) a = innerOf g a := by
  unfold innerOf
  rw [findA_edges_add_node]
  by_cases ha : a = n
  · subst ha; simp
  · simp [ha]

theorem edgeB_add_node (g : Graph) (n : Nat) (v : Val) (a b : Nat) :
    edgeB (add_node g n v) a b = edgeB g a b := by
  rw [edgeB_eq_findA_innerOf, edgeB_eq_findA_innerOf, innerOf_add_node]

theorem EdgeP_add_node (g : Graph) (n : Nat) (v : Val) (a b : Nat) :
    EdgeP (add_node g n v) a b ↔ EdgeP g a b := by
  unfold EdgeP; rw [edgeB_add_node]

theorem findA_edges_add_edge (g : Graph) (u v : Nat) (w : Val) (a : Nat) :
    findA (add_edge g u v w).edges a =
      if a = u then
        some (insertA ((findA (add_node (add_node g u none) v none).edges u).getD []) v w)
      else findA (add_node (add_node g u none) v none).edges a := by
  show findA (insertA (add_node (add_node g u none) v none).edges u _) a = _
  by_cases ha : a = u
  · subst ha; simp [findA_insertA_self]
  · simp [ha, findA_insertA_ne _ u a _ (fun h => ha h.symm)]

theorem innerOf_add_edge (g : Graph) (u v : Nat) (w : Val) (a : Nat) :
    innerOf (add_edge g u v w) a =
      if a = u then insertA (innerOf g u) v w else innerOf g a := by
  unfold innerOf
  rw [findA_edges_add_edge]
  by_cases ha : a = u
  · subst ha
    rw [if_pos rfl, if_pos rfl, Option.getD_some]
    have h1 : (findA (add_node (add_node g a none) v none).edges a).getD [] =
        innerOf g a := by
      rw [show (findA (add_node (add_node g a none) v none).edges a).getD [] =
          innerOf (add_node (add_node g a none) v none) a from rfl,
        innerOf_add_node, innerOf_add_node]
    rw [h1]
    rfl
  · rw [if_neg ha, if_neg ha,
      show (findA (add_node (add_node g u none) v none).edges a).getD [] =
        innerOf (add_node (add_node g u none) v none) a from rfl,
      innerOf_add_node, innerOf_add_node]
    rfl

theorem EdgeP_add_edge (g : Graph) (u v : Nat) (w : Val) (a b : Nat) :
    EdgeP (add_edge g u v w) a b ↔ (a = u ∧ b = v) ∨ EdgeP g a b := by
  unfold EdgeP
  rw [edgeB_eq_findA_innerOf, edgeB_eq_findA_innerOf, innerOf_add_edge]
  by_cases ha : a = u
  · subst ha
    rw [if_pos rfl]
    by_cases hb : b = v
    · subst hb; simp [findA_insertA_self]
    · rw [findA_insertA_ne _ v b w (fun h => hb h.symm)]
      simp [hb]
  · simp [ha]

theorem DAG_add_edge_eq (g : Graph) (u v : Nat) (w : Val) :
    DAG.add_edge g u v w =
      if has_path (add_node (add_node g u none) v none) v u then
        (add_node (add_node g u none) v none, some .CycleDetected)
      else (add_edge g u v w, none) := rfl

theorem mem_insertA {β : Type} {l : List (Nat × β)} {k : Nat} {v : β} {p : Nat × β}
    (h : p ∈ insertA l k v) : p ∈ l ∨ p = (k, v) := by
  revert h
  induction l with
  | nil =>
    intro h
    rw [show insertA ([] : List (Nat × β)) k v = [(k, v)] from rfl] at h
    exact Or.inr (List.mem_singleton.1 h)
  | cons q rest ih =>
    obtain ⟨a, b⟩ := q
    intro h
    by_cases ha : a = k
    · rw [show insertA ((a, b) :: rest) k v = (a, v) :: rest from by
        simp [insertA, ha]] at h
      rcases List.mem_cons.1 h with h1 | h1
      · exact Or.inr (by rw [h1, ha])
      · exact Or.inl (List.mem_cons_of_mem _ h1)
    · rw [show insertA ((a, b) :: rest) k v = (a, b) :: insertA rest k v from by
        simp [insertA, ha]] at h
      rcases List.mem_cons.1 h with h1 | h1
      · exact Or.inl (List.mem_cons.2 (Or.inl h1))
      · rcases ih h1 with h2 | h2
        · exact Or.inl (List.mem_cons_of_mem _ h2)
        · exact Or.inr h2

theorem edges_add_node (g : Graph) (n : Nat) (v : Val) :
    (add_node g n v).edges =
      if containsA g.edges n = true then g.edges else insertA g.edges n [] := rfl

theorem containsA_edges_add_node (g : Graph) (n : Nat) (v : Val) (a : Nat) :
    containsA (add_node g n v).edges a = true ↔ a = n ∨ containsA g.edges a = true := by
  unfold containsA
  rw [findA_edges_add_node]
  by_cases ha : a = n <;> simp [ha]

theorem nodes_mem_add_node (g : Graph) (n : Nat) (v : Val) (a : Nat) :
    a ∈ keysA (add_node g n v).nodes ↔ a = n ∨ a ∈ keysA g.nodes := by
  rw [nodes_add_node]; exact mem_keysA_insertA g.nodes n a v

/-! ### Well-formedness is preserved by every mutating operation -/

theorem Wf_empty : Wf Graph.empty := by decide

theorem Wf_add_node (g : Graph) (n : Nat) (v : Val) (h : Wf g) : Wf (add_node g n v) := by
  obtain ⟨h1, h2, h3, h4, h5, h6⟩ := h
  refine ⟨nodupKeys_insertA _ _ _ h1, ?_, ?_, ?_, ?_, ?_⟩
  · rw [NodupKeys, edges_add_node]
    by_cases hc : containsA g.edges n = true
    · simpa [hc] using h2
    · simpa [hc] using nodupKeys_insertA g.edges n [] h2
  · intro p hp
    rw [edges_add_node] at hp
    by_cases hc : containsA g.edges n = true
    · exact h3 p (by simpa [hc] using hp)
    · rw [if_neg hc] at hp
      rcases mem_insertA hp with hp' | rfl
      · exact h3 p hp'
      · simp [NodupKeys, keysA_nil]
  · intro m hm
    have hm' : m = n ∨ m ∈ keysA g.edges := by
      rcases (containsA_edges_add_node g n v m).1 ((containsA_iff _ _).2 hm) with h' | h'
      · exact Or.inl h'
      · exact Or.inr ((containsA_iff _ _).1 h')
    rw [containsA_iff, nodes_mem_add_node]
    rcases hm' with h' | h'
    · exact Or.inl h'
    · exact Or.inr ((containsA_iff _ _).1 (h4 m h'))
  · intro m hm
    rw [nodes_mem_add_node] at hm
    rw [containsA_edges_add_node]
    rcases hm with h' | h'
    · exact Or.inl h'
    · exact Or.inr (h5 m h')
  · intro p hp q hq
    rw [containsA_iff, nodes_mem_add_node]
    rw [edges_add_node] at hp
    by_cases hc : containsA g.edges n = true
    · rw [if_pos hc] at hp
      exact Or.inr ((containsA_iff _ _).1 (h6 p hp q hq))
    · rw [if_neg hc] at hp
      rcases mem_insertA hp with hp' | hp'
      · exact Or.inr ((containsA_iff _ _).1 (h6 p hp' q hq))
      · rw [hp'] at hq
        simp at hq

theorem containsA_edges_of_mem_nodes (g : Graph) (h : Wf g) (n : Nat)
    (hn : n ∈ keysA g.nodes) : containsA g.edges n = true :=
  h.2.2.2.2.1 n hn

theorem Wf_add_edge (g : Graph) (u v : Nat) (w : Val) (h : Wf g) :
    Wf (add_edge g u v w) := by
  have h1 : Wf (add_node (add_node g u none) v none) :=
    Wf_add_node _ v none (Wf_add_node g u none h)
  set g1 := add_node (add_node g u none) v none with hg1
  have hu_nodes : u ∈ keysA g1.nodes := by
    rw [hg1, nodes_mem_add_node, nodes_mem_add_node]
    exact Or.inr (Or.inl rfl)
  have hv_nodes : v ∈ keysA g1.nodes := by
    rw [hg1, nodes_mem_add_node]
    exact Or.inl rfl
  have hu_edges : containsA g1.edges u = true :=
    containsA_edges_of_mem_nodes g1 h1 u hu_nodes
  obtain ⟨w1, w2, w3, w4, w5, w6⟩ := h1
  rcases Option.isSome_iff_exists.1 hu_edges with ⟨inner0, hinner⟩
  have hmem_u : (u, inner0) ∈ g1.edges := mem_of_findA_eq_some hinner
  have hinner_nodup : NodupKeys inner0 := w3 _ hmem_u
  have hedges : (add_edge g u v w).edges =
      insertA g1.edges u (insertA inner0 v w) := by
    show insertA g1.edges u (insertA ((findA g1.edges u).getD []) v w) = _
    rw [hinner]
    rfl
  have hnodes : (add_edge g u v w).nodes = g1.nodes := rfl
  refine ⟨?_, ?_, ?_, ?_, ?_, ?_⟩
  · rw [NodupKeys, hnodes]; exact w1
  · rw [NodupKeys, hedges]; exact nodupKeys_insertA _ _ _ w2
  · intro p hp
    rw [hedges] at hp
    rcases mem_insertA hp with hp' | rfl
    · exact w3 p hp'
    · exact nodupKeys_insertA _ _ _ hinner_nodup
  · intro m hm
    rw [hedges] at hm
    rw [hnodes, containsA_iff]
    rcases (mem_keysA_insertA _ _ _ _).1 hm with h' | h'
    · rw [h']; exact hu_nodes
    · exact (containsA_iff _ _).1 (w4 m h')
  · intro m hm
    rw [hnodes] at hm
    rw [hedges, containsA_iff, mem_keysA_insertA]
    exact Or.inr ((containsA_iff _ _).1 (w5 m hm))
  · intro p hp q hq
    rw [hedges] at hp
    rw [hnodes]
    rcases mem_insertA hp with hp' | hp'
    · exact w6 p hp' q hq
    · rw [hp'] at hq
      rcases mem_insertA (show q ∈ insertA inner0 v w from hq) with hq' | hq'
      · exact w6 (u, inner0) hmem_u q hq'
      · rw [hq', containsA_iff]; exact hv_nodes

theorem Wf_DAG_add_edge (g : Graph) (u v : Nat) (w : Val) (h : Wf g) :
    Wf ((DAG.add_edge g u v w).1) := by
  rw [DAG_add_edge_eq]
  by_cases hp : has_path (add_node (add_node g u none) v none) v u = true
  · simp only [if_pos hp]
    exact Wf_add_node _ v none (Wf_add_node g u none h)
  · simp only [Bool.not_eq_true] at hp
    simp only [hp, Bool.false_eq_true, if_false]
    exact Wf_add_edge g u v w h

/-- `get_edge_weight` seen through the stored entry for the pair `(u, v)`. -/
theorem get_edge_weight_eq (g : Graph) (u v : Nat) :
    get_edge_weight g u v =
      match findA (innerOf g u) v with
      | none => .error .NotFound
      | some w => .ok w := by
  unfold get_edge_weight innerOf
  rcases h : findA g.edges u with _ | inner
  · simp [findA]
  · simp

/-! ### Claim theorems: C7, C8, C9, C2 -/

/-- C7 counterexample: the claim says `add_edge` leaves an existing
endpoint's stored value unchanged; but after `add_node(0, 5)`,
`add_edge(0, 1)` resets node 0's value to the absent-value marker. -/
theorem C7_counterexample :
    get_node_value (add_node Graph.empty 0 (some 5)) 0 = Except.ok (some 5) ∧
    get_node_value (add_edge (add_node Graph.empty 0 (some 5)) 0 1 none) 0 =
      Except.ok none ∧
    (Except.ok (some 5) : Except GError Val) ≠ Except.ok none := by
  refine ⟨rfl, rfl, fun h => ?_⟩
  injection h with h1
  exact Option.noConfusion h1

/-- C7, amended: `add_edge(u, v, w)` upserts both endpoints through
`add_node` with no value, so after the call both endpoints store the
absent-value marker (an existing endpoint's value is overwritten, not
preserved); all other nodes' values are untouched, and both endpoints have
adjacency entries. -/
theorem C7_amended_theorem (g : Graph) (u v : Nat) (w : Val) :
    findA (add_edge g u v w).nodes u = some none ∧
    findA (add_edge g u v w).nodes v = some none ∧
    (∀ x, x ≠ u → x ≠ v → findA (add_edge g u v w).nodes x = findA g.nodes x) ∧
    containsA (add_edge g u v w).edges u = true ∧
    containsA (add_edge g u v w).edges v = true := by
  have hnodes : (add_edge g u v w).nodes = insertA (insertA g.nodes u none) v none := rfl
  refine ⟨?_, ?_, ?_, ?_, ?_⟩
  · rw [hnodes]
    by_cases huv : v = u
    · subst huv; exact findA_insertA_self _ _ _
    · rw [findA_insertA_ne _ v u none huv]; exact findA_insertA_self _ _ _
  · rw [hnodes]; exact findA_insertA_self _ _ _
  · intro x hxu hxv
    rw [hnodes, findA_insertA_ne _ v x none (fun h => hxv h.symm),
      findA_insertA_ne _ u x none (fun h => hxu h.symm)]
  · rw [show (add_edge g u v w).edges =
        insertA (add_node (add_node g u none) v none).edges u
          (insertA ((findA (add_node (add_node g u none) v none).edges u).getD []) v w)
      from rfl, containsA_iff, mem_keysA_insertA]
    exact Or.inl rfl
  · rw [show (add_edge g u v w).edges =
        insertA (add_node (add_node g u none) v none).edges u
          (insertA ((findA (add_node (add_node g u none) v none).edges u).getD []) v w)
      from rfl, containsA_iff, mem_keysA_insertA]
    exact Or.inr (by
      rw [← containsA_iff, containsA_edges_add_node]
      exact Or.inl rfl)

/-- C7 amended, witnessed at a concrete input: node 2 is unrelated to the
edge 0 → 1 and keeps its (absent) binding. -/
theorem C7_amended_witness :
    findA (add_edge Graph.empty 0 1 none).nodes 2 = findA Graph.empty.nodes 2 :=
  (C7_amended_theorem Graph.empty 0 1 none).2.2.1 2 (by decide) (by decide)

/-- C8: `get_edge_weight(u, v)` fails with `NotFound` exactly when no entry
for the pair is stored; a stored entry is returned as stored (so a stored
absent-value marker is returned, not an error); right after
`add_edge(u, v, w)` it returns `w`, and the stored answer is unchanged by
`add_node` and by `add_edge` on any other pair. -/
theorem C8_theorem (g : Graph) (u v : Nat) :
    (get_edge_weight g u v = .error .NotFound ↔ findA (innerOf g u) v = none) ∧
    (∀ w, findA (innerOf g u) v = some w → get_edge_weight g u v = .ok w) ∧
    (∀ w, get_edge_weight (add_edge g u v w) u v = .ok w) ∧
    (∀ x val, get_edge_weight (add_node g x val) u v = get_edge_weight g u v) ∧
    (∀ a b w2, ¬(a = u ∧ b = v) →
      get_edge_weight (add_edge g a b w2) u v = get_edge_weight g u v) := by
  refine ⟨?_, ?_, ?_, ?_, ?_⟩
  · rw [get_edge_weight_eq]
    rcases h : findA (innerOf g u) v with _ | w <;> simp [h]
  · intro w hw
    rw [get_edge_weight_eq, hw]
  · intro w
    rw [get_edge_weight_eq, innerOf_add_edge, if_pos rfl, findA_insertA_self]
  · intro x val
    rw [get_edge_weight_eq, get_edge_weight_eq, innerOf_add_node]
  · intro a b w2 hab
    rw [get_edge_weight_eq, get_edge_weight_eq, innerOf_add_edge]
    by_cases ha : u = a
    · subst ha
      have hb : b ≠ v := fun h => hab ⟨rfl, h⟩
      rw [if_pos rfl, findA_insertA_ne _ b v w2 hb]
    · rw [if_neg ha]

/-- C8 witness at a concrete input: an edge stored with the absent-value
marker answers `ok none`, not `NotFound`. -/
theorem C8_witness :
    get_edge_weight (add_edge Graph.empty 0 1 none) 0 1 = Except.ok none :=
  (C8_theorem (add_edge Graph.empty 0 1 none) 0 1).2.1 none (by decide)

/-- C9: the storage invariant — every stored edge source and target is
present in the node mapping and every node has an adjacency entry (together
with distinctness of all dict keys, `Wf`) — holds of the empty graph and is
preserved by `add_node`, by the unguarded `add_edge` and by the guarded
`DAG.add_edge` whether it succeeds or fails; the read operations do not
change the state at all. -/
theorem C9_theorem :
    Wf Graph.empty ∧
    ∀ g, Wf g → ∀ n val u v w,
      Wf (add_node g n val) ∧ Wf (add_edge g u v w) ∧ Wf ((DAG.add_edge g u v w).1) :=
  ⟨Wf_empty, fun g hg _ val u v w =>
    ⟨Wf_add_node g _ val hg, Wf_add_edge g u v w hg, Wf_DAG_add_edge g u v w hg⟩⟩

/-- C9 witness: the concrete 3-node DAG scenario state is well-formed. -/
theorem C9_witness :
    Wf (add_edge (add_edge (add_edge Graph.empty 0 1 none) 1 2 none) 0 2 none) :=
  ((C9_theorem.2 _
    ((C9_theorem.2 _
      ((C9_theorem.2 _ C9_theorem.1 0 none 0 1 none).2.1) 0 none 1 2 none).2.1)
    0 none 0 2 none).2.1)

/-- C2 counterexample: a guarded self-loop insert on the empty graph raises
`CycleDetected` yet mutates the node mapping (both endpoints were added
before the reachability probe), so the refusal is not atomic. -/
theorem C2_counterexample :
    (DAG.add_edge Graph.empty 0 0 none).2 = some GError.CycleDetected ∧
    (DAG.add_edge Graph.empty 0 0 none).1.nodes ≠ Graph.empty.nodes := by
  refine ⟨rfl, ?_⟩
  decide

/-- C2, amended: a failed guarded insert raises `CycleDetected` and commits
no edge — the edge relation is exactly as before — but it does mutate the
graph: the state after the failure is exactly the state after the two
preliminary `add_node` calls (absent endpoints created with no value,
existing endpoint values reset to the absent marker). -/
theorem C2_amended_theorem (g : Graph) (u v : Nat) (w : Val) (e : GError)
    (h : (DAG.add_edge g u v w).2 = some e) :
    e = GError.CycleDetected ∧
    (DAG.add_edge g u v w).1 = add_node (add_node g u none) v none ∧
    (∀ a b, EdgeP ((DAG.add_edge g u v w).1) a b ↔ EdgeP g a b) := by
  rw [DAG_add_edge_eq] at h ⊢
  by_cases hp : has_path (add_node (add_node g u none) v none) v u = true
  · rw [if_pos hp] at h ⊢
    refine ⟨by injection h with h'; exact h'.symm, rfl, fun a b => ?_⟩
    rw [EdgeP_add_node, EdgeP_add_node]
  · simp only [Bool.not_eq_true] at hp
    rw [hp] at h
    simp at h

/-- C2 amended, witnessed on the self-loop refusal over the empty graph. -/
theorem C2_amended_witness :
    (GError.CycleDetected = GError.CycleDetected ∧
      (DAG.add_edge Graph.empty 0 0 none).1 = add_node (add_node Graph.empty 0 none) 0 none ∧
      (∀ a b, EdgeP ((DAG.add_edge Graph.empty 0 0 none).1) a b ↔ EdgeP Graph.empty a b)) :=
  C2_amended_theorem Graph.empty 0 0 none GError.CycleDetected rfl

/-! ### Correctness of the reachability probe `_has_path` -/

theorem mem_succKeys (g : Graph) (a b : Nat) : b ∈ succKeys g a ↔ EdgeP g a b := by
  rw [succKeys_eq_keys_innerOf, EdgeP, edgeB_eq_findA_innerOf, findA_isSome_iff]

theorem mem_successors (g : Graph) (a b : Nat) : b ∈ successors g a ↔ EdgeP g a b := by
  rw [successors, List.mem_insertionSort, mem_succKeys]

theorem length_successors (g : Graph) (a : Nat) :
    (successors g a).length = outdegA g a := by
  rw [successors, List.length_insertionSort, succKeys_eq_keys_innerOf, keysA,
    List.length_map]
  rfl

theorem length_succKeys (g : Graph) (a : Nat) :
    (succKeys g a).length = outdegA g a := by
  rw [succKeys_eq_keys_innerOf, keysA, List.length_map]; rfl

theorem mem_targetsF_of_EdgeP (g : Graph) {a b : Nat} (h : EdgeP g a b) :
    b ∈ targetsF g := by
  rw [EdgeP, edgeB_eq_findA_innerOf] at h
  rcases hfind : findA g.edges a with _ | inner
  · rw [innerOf, hfind] at h; simp [findA] at h
  · have hb : b ∈ keysA inner := by
      rw [← findA_isSome_iff]
      rw [innerOf, hfind] at h
      exact h
    have hmem : (a, inner) ∈ g.edges := mem_of_findA_eq_some hfind
    rw [targetsF, List.mem_toFinset, List.mem_flatten]
    exact ⟨keysA inner, List.mem_map.2 ⟨(a, inner), hmem, rfl⟩, hb⟩

theorem sdiff_insert_eq_erase (univ visited : Finset Nat) (a : Nat) :
    univ \ insert a visited = (univ \ visited).erase a := by
  ext x
  simp only [Finset.mem_sdiff, Finset.mem_erase, Finset.mem_insert, not_or]
  tauto

theorem sum_sdiff_insert (g : Graph) (univ visited : Finset Nat) (a : Nat)
    (ha : a ∈ univ) (hav : a ∉ visited) :
    Finset.sum (univ \ visited) (fun n => outdegA g n + 1) =
      Finset.sum (univ \ insert a visited) (fun n => outdegA g n + 1) +
        (outdegA g a + 1) := by
  rw [sdiff_insert_eq_erase,
    Finset.sum_erase_add (univ \ visited) _ (Finset.mem_sdiff.2 ⟨ha, hav⟩)]

/-- Escape lemma: when every visited node's successors stay inside
`visited ∪ S` and the goal is unvisited, any visited node that reaches the
goal does so through an unvisited member of `S`. -/
theorem reach_escape (g : Graph) (goal : Nat) (S : List Nat) (visited : Finset Nat)
    (hclosed : ∀ x ∈ visited, ∀ y, EdgeP g x y → y ∈ visited ∨ y ∈ S)
    (hgoal : goal ∉ visited) :
    ∀ x, x ∈ visited → Reach g x goal →
      ∃ s ∈ S, s ∉ visited ∧ Reach g s goal := by
  intro x hx hreach
  rw [Reach] at hreach
  induction hreach using Relation.ReflTransGen.head_induction_on with
  | refl => exact absurd hx hgoal
  | head hab hbg ih =>
    rename_i a c
    rcases hclosed a hx c hab with hc | hc
    · exact ih hc
    · by_cases hcv : c ∈ visited
      · exact ih hcv
      · exact ⟨c, hc, hcv, hbg⟩

/-- Master invariant lemma for the `_has_path` stack loop: with enough fuel
the loop answers `true` exactly when some stack entry reaches the goal. -/
theorem hasPathLoop_iff (g : Graph) (goal : Nat) (univ : Finset Nat)
    (htarget : ∀ a b, EdgeP g a b → b ∈ univ) :
    ∀ (fuel : Nat) (stack : List Nat) (visited : Finset Nat),
      (∀ x ∈ stack, x ∈ univ) →
      potGen g univ stack.length visited + 1 ≤ fuel →
      goal ∉ visited →
      (∀ x ∈ visited, ∀ y, EdgeP g x y → y ∈ visited ∨ y ∈ stack) →
      (hasPathLoop g goal fuel stack visited = true ↔ ∃ s ∈ stack, Reach g s goal) := by
  intro fuel
  induction fuel with
  | zero =>
    intro stack visited _ hfuel _ _
    omega
  | succ fuel ih =>
    intro stack visited hstack hfuel hgoal hclosed
    match stack with
    | [] => simp [hasPathLoop]
    | node :: rest =>
      by_cases hng : node = goal
      · have hstep : hasPathLoop g goal (fuel + 1) (node :: rest) visited = true := by
          simp [hasPathLoop, hng]
        rw [hstep]
        simp only [true_iff]
        refine ⟨node, List.mem_cons_self _ _, ?_⟩
        rw [hng]
        exact Relation.ReflTransGen.refl
      · by_cases hnv : node ∈ visited
        · rw [show hasPathLoop g goal (fuel + 1) (node :: rest) visited =
              hasPathLoop g goal fuel rest visited from by
            simp [hasPathLoop, hng, hnv]]
          rw [ih rest visited (fun x hx => hstack x (List.mem_cons_of_mem _ hx))
            (by
              rw [potGen] at hfuel ⊢
              simp only [List.length_cons] at hfuel
              omega)
            hgoal
            (fun x hx y hy => by
              rcases hclosed x hx y hy with h' | h'
              · exact Or.inl h'
              · rcases List.mem_cons.1 h' with rfl | h''
                · exact Or.inl hnv
                · exact Or.inr h'')]
          constructor
          · rintro ⟨s, hs, hr⟩
            exact ⟨s, List.mem_cons_of_mem _ hs, hr⟩
          · rintro ⟨s, hs, hr⟩
            rcases List.mem_cons.1 hs with rfl | hs'
            · rcases reach_escape g goal (s :: rest) visited hclosed hgoal s hnv hr with
                ⟨t, ht, htv, htr⟩
              rcases List.mem_cons.1 ht with rfl | ht'
              · exact absurd hnv htv
              · exact ⟨t, ht', htr⟩
            · exact ⟨s, hs', hr⟩
        · rw [show hasPathLoop g goal (fuel + 1) (node :: rest) visited =
              hasPathLoop g goal fuel ((succKeys g node).reverse ++ rest)
                (insert node visited) from by
            simp [hasPathLoop, hng, hnv]]
          have hnode_univ : node ∈ univ := hstack node (List.mem_cons_self _ _)
          rw [ih ((succKeys g node).reverse ++ rest) (insert node visited)
            (by
              intro x hx
              rcases List.mem_append.1 hx with hx' | hx'
              · exact htarget node x ((mem_succKeys g node x).1 (List.mem_reverse.1 hx'))
              · exact hstack x (List.mem_cons_of_mem _ hx'))
            (by
              rw [potGen] at hfuel ⊢
              rw [sum_sdiff_insert g univ visited node hnode_univ hnv] at hfuel
              simp only [List.length_cons, List.length_append, List.length_reverse,
                length_succKeys] at hfuel ⊢
              omega)
            (by
              intro hmem
              rcases Finset.mem_insert.1 hmem with rfl | h'
              · exact hng rfl
              · exact hgoal h')
            (by
              intro x hx y hy
              rcases Finset.mem_insert.1 hx with rfl | hx'
              · exact Or.inr (List.mem_append.2 (Or.inl
                  (List.mem_reverse.2 ((mem_succKeys g x y).2 hy))))
              · rcases hclosed x hx' y hy with h' | h'
                · exact Or.inl (Finset.mem_insert_of_mem h')
                · rcases List.mem_cons.1 h' with rfl | h''
                  · exact Or.inl (Finset.mem_insert_self _ _)
                  · exact Or.inr (List.mem_append.2 (Or.inr h'')))]
          constructor
          · rintro ⟨s, hs, hr⟩
            rcases List.mem_append.1 hs with hs' | hs'
            · refine ⟨node, List.mem_cons_self _ _, ?_⟩
              exact Relation.ReflTransGen.head
                ((mem_succKeys g node s).1 (List.mem_reverse.1 hs')) hr
            · exact ⟨s, List.mem_cons_of_mem _ hs', hr⟩
          · rintro ⟨s, hs, hr⟩
            rcases List.mem_cons.1 hs with rfl | hs'
            · rcases Relation.ReflTransGen.cases_head hr with heq | ⟨c, hc, hcr⟩
              · exact absurd heq hng
              · exact ⟨c, List.mem_append.2 (Or.inl
                  (List.mem_reverse.2 ((mem_succKeys g s c).2 hc))), hcr⟩
            · exact ⟨s, List.mem_append.2 (Or.inr hs'), hr⟩

/-- `_has_path(start, goal)` decides reachability by a path of length ≥ 0. -/
theorem has_path_iff_reach (g : Graph) (s t : Nat) :
    has_path g s t = true ↔ Reach g s t := by
  rw [has_path, hpFuel,
    hasPathLoop_iff g t (insert s (targetsF g))
      (fun a b h => Finset.mem_insert_of_mem (mem_targetsF_of_EdgeP g h))
      (potGen g (insert s (targetsF g)) 1 ∅ + 1) [s] ∅
      (by intro x hx; rw [List.mem_singleton.1 hx]; exact Finset.mem_insert_self _ _)
      (by rw [List.length_singleton])
      (Finset.not_mem_empty t)
      (by intro x hx; exact absurd hx (Finset.not_mem_empty x))]
  constructor
  · rintro ⟨x, hx, hr⟩
    rw [List.mem_singleton.1 hx] at hr
    exact hr
  · intro hr
    exact ⟨s, List.mem_singleton.2 rfl, hr⟩

theorem Reach_add_node (g : Graph) (n : Nat) (val : Val) (a b : Nat) :
    Reach (add_node g n val) a b ↔ Reach g a b := by
  have h : EdgeP (add_node g n val) = EdgeP g := by
    funext x y
    exact propext (EdgeP_add_node g n val x y)
  rw [Reach, Reach, h]

/-- C3: the guarded insert raises `CycleDetected` exactly when a directed
path (length ≥ 0) from `v` to `u` exists over the edges at call time; a
self-loop is always refused (zero-length path); and when no such path
exists the commit is exactly the unguarded `add_edge`. -/
theorem C3_theorem (g : Graph) (u v : Nat) (w : Val) :
    ((DAG.add_edge g u v w).2 = some GError.CycleDetected ↔ Reach g v u) ∧
    (∀ a w2, (DAG.add_edge g a a w2).2 = some GError.CycleDetected) ∧
    (¬ Reach g v u → DAG.add_edge g u v w = (add_edge g u v w, none)) := by
  have hre : ∀ u' v' : Nat, Reach (add_node (add_node g u' none) v' none) v' u' ↔
      Reach g v' u' := by
    intro u' v'
    rw [Reach_add_node, Reach_add_node]
  refine ⟨?_, ?_, ?_⟩
  · rw [DAG_add_edge_eq]
    by_cases hp : has_path (add_node (add_node g u none) v none) v u = true
    · rw [if_pos hp]
      simp only [true_iff]
      exact (hre u v).1 ((has_path_iff_reach _ v u).1 hp)
    · rw [if_neg hp]
      simp only []
      constructor
      · intro h
        exact absurd h (by simp)
      · intro hr
        exact absurd ((has_path_iff_reach _ v u).2 ((hre u v).2 hr)) hp
  · intro a w2
    rw [DAG_add_edge_eq]
    have hp : has_path (add_node (add_node g a none) a none) a a = true :=
      (has_path_iff_reach _ a a).2 Relation.ReflTransGen.refl
    rw [if_pos hp]
  · intro hr
    rw [DAG_add_edge_eq]
    have hp : ¬ has_path (add_node (add_node g u none) v none) v u = true := by
      intro h
      exact hr ((hre u v).1 ((has_path_iff_reach _ v u).1 h))
    rw [if_neg hp]

/-- C3 witnessed: inserting 0 → 1 into the empty guarded graph succeeds and
commits exactly as the unguarded insert. -/
theorem C3_witness :
    DAG.add_edge Graph.empty 0 1 none = (add_edge Graph.empty 0 1 none, none) :=
  (C3_theorem Graph.empty 0 1 none).2.2 (fun h => by
    rcases Relation.ReflTransGen.cases_head h with h1 | ⟨c, hc, _⟩
    · exact absurd h1 (by decide)
    · exact Bool.noConfusion hc)

/-! ### DFS: monotonicity, fuel stability, and the visited-set
characterization -/

theorem dfsGo_nil (g : Graph) (fuel : Nat) (st : Finset Nat × List Nat) :
    dfsGo g fuel [] st = st := by
  cases fuel <;> rfl

theorem dfsGo_cons_mem (g : Graph) (fuel : Nat) (nbr : Nat) (rest : List Nat)
    (st : Finset Nat × List Nat) (h : nbr ∈ st.1) :
    dfsGo g (fuel + 1) (nbr :: rest) st = dfsGo g fuel rest st := by
  simp [dfsGo, h]

theorem dfsGo_cons_fresh (g : Graph) (fuel : Nat) (nbr : Nat) (rest : List Nat)
    (st : Finset Nat × List Nat) (h : nbr ∉ st.1) :
    dfsGo g (fuel + 1) (nbr :: rest) st =
      dfsGo g fuel rest
        (dfsGo g fuel (successors g nbr) (insert nbr st.1, st.2 ++ [nbr])) := by
  simp [dfsGo, h]

theorem dfsGo_visited_mono (g : Graph) :
    ∀ (fuel : Nat) (l : List Nat) (st : Finset Nat × List Nat),
      st.1 ⊆ (dfsGo g fuel l st).1 := by
  intro fuel
  induction fuel with
  | zero => intro l st; exact Finset.Subset.refl _
  | succ fuel ih =>
    intro l st
    match l with
    | [] => rw [dfsGo_nil]
    | nbr :: rest =>
      by_cases h : nbr ∈ st.1
      · rw [dfsGo_cons_mem g fuel nbr rest st h]
        exact ih rest st
      · rw [dfsGo_cons_fresh g fuel nbr rest st h]
        refine Finset.Subset.trans ?_ (Finset.Subset.trans
          (ih (successors g nbr) (insert nbr st.1, st.2 ++ [nbr])) (ih rest _))
        exact Finset.subset_insert _ _

theorem sum_mono_visited (g : Graph) (univ visited visited' : Finset Nat)
    (h : visited ⊆ visited') :
    Finset.sum (univ \ visited') (fun n => outdegA g n + 1) ≤
      Finset.sum (univ \ visited) (fun n => outdegA g n + 1) :=
  Finset.sum_le_sum_of_subset
    (Finset.sdiff_subset_sdiff (Finset.Subset.refl _) h)

theorem dfsGo_stable (g : Graph) (univ : Finset Nat)
    (htarget : ∀ a b, EdgeP g a b → b ∈ univ) :
    ∀ (fuel : Nat) (l : List Nat) (st : Finset Nat × List Nat),
      (∀ x ∈ l, x ∈ univ) →
      potGen g univ l.length st.1 + 1 ≤ fuel →
      dfsGo g fuel l st = dfsGo g (fuel + 1) l st := by
  intro fuel
  induction fuel with
  | zero => intro l st _ hfuel; omega
  | succ fuel ih =>
    intro l st hl hfuel
    match l with
    | [] => rw [dfsGo_nil, dfsGo_nil]
    | nbr :: rest =>
      by_cases h : nbr ∈ st.1
      · rw [dfsGo_cons_mem g fuel nbr rest st h,
          dfsGo_cons_mem g (fuel + 1) nbr rest st h]
        refine ih rest st (fun x hx => hl x (List.mem_cons_of_mem _ hx)) ?_
        rw [potGen] at hfuel ⊢
        simp only [List.length_cons] at hfuel
        omega
      · rw [dfsGo_cons_fresh g fuel nbr rest st h,
          dfsGo_cons_fresh g (fuel + 1) nbr rest st h]
        have hnbr_univ : nbr ∈ univ := hl nbr (List.mem_cons_self _ _)
        have hsum := sum_sdiff_insert g univ st.1 nbr hnbr_univ h
        have hsuccs_univ : ∀ x ∈ successors g nbr, x ∈ univ := fun x hx =>
          htarget nbr x ((mem_successors g nbr x).1 hx)
        have hinner : dfsGo g fuel (successors g nbr) (insert nbr st.1, st.2 ++ [nbr]) =
            dfsGo g (fuel + 1) (successors g nbr) (insert nbr st.1, st.2 ++ [nbr]) := by
          refine ih (successors g nbr) _ hsuccs_univ ?_
          rw [potGen] at hfuel ⊢
          simp only [List.length_cons, length_successors] at hfuel ⊢
          omega
        rw [← hinner]
        set R := dfsGo g fuel (successors g nbr) (insert nbr st.1, st.2 ++ [nbr]) with hR
        have hRmono : insert nbr st.1 ⊆ R.1 := by
          rw [hR]
          exact dfsGo_visited_mono g fuel (successors g nbr)
            (insert nbr st.1, st.2 ++ [nbr])
        refine ih rest R (fun x hx => hl x (List.mem_cons_of_mem _ hx)) ?_
        have hmono := sum_mono_visited g univ (insert nbr st.1) R.1 hRmono
        rw [potGen] at hfuel ⊢
        simp only [List.length_cons] at hfuel
        omega

/-- Master invariant lemma for `_visit`: every worklist element ends up
visited, everything newly visited is reachable from the worklist, and newly
visited nodes have all successors visited. -/
theorem dfsGo_master (g : Graph) (univ : Finset Nat)
    (htarget : ∀ a b, EdgeP g a b → b ∈ univ) :
    ∀ (fuel : Nat) (l : List Nat) (st : Finset Nat × List Nat),
      (∀ x ∈ l, x ∈ univ) →
      potGen g univ l.length st.1 + 1 ≤ fuel →
      ((∀ a ∈ l, a ∈ (dfsGo g fuel l st).1) ∧
       (∀ x ∈ (dfsGo g fuel l st).1, x ∈ st.1 ∨ ∃ a ∈ l, Reach g a x) ∧
       (∀ x ∈ (dfsGo g fuel l st).1, x ∉ st.1 →
         ∀ y, EdgeP g x y → y ∈ (dfsGo g fuel l st).1)) := by
  intro fuel
  induction fuel with
  | zero => intro l st _ hfuel; omega
  | succ fuel ih =>
    intro l st hl hfuel
    match l with
    | [] =>
      rw [dfsGo_nil]
      refine ⟨fun a ha => absurd ha (List.not_mem_nil a), fun x hx => Or.inl hx,
        fun x hx hxn => absurd hx hxn⟩
    | nbr :: rest =>
      by_cases h : nbr ∈ st.1
      · rw [dfsGo_cons_mem g fuel nbr rest st h]
        have hrest_fuel : potGen g univ rest.length st.1 + 1 ≤ fuel := by
          rw [potGen] at hfuel ⊢
          simp only [List.length_cons] at hfuel
          omega
        obtain ⟨m1, m2, m3⟩ := ih rest st
          (fun x hx => hl x (List.mem_cons_of_mem _ hx)) hrest_fuel
        refine ⟨?_, ?_, m3⟩
        · intro a ha
          rcases List.mem_cons.1 ha with rfl | ha'
          · exact dfsGo_visited_mono g fuel rest st h
          · exact m1 a ha'
        · intro x hx
          rcases m2 x hx with h' | ⟨a, ha, hr⟩
          · exact Or.inl h'
          · exact Or.inr ⟨a, List.mem_cons_of_mem _ ha, hr⟩
      · rw [dfsGo_cons_fresh g fuel nbr rest st h]
        have hnbr_univ : nbr ∈ univ := hl nbr (List.mem_cons_self _ _)
        have hsum := sum_sdiff_insert g univ st.1 nbr hnbr_univ h
        have hsuccs_univ : ∀ x ∈ successors g nbr, x ∈ univ := fun x hx =>
          htarget nbr x ((mem_successors g nbr x).1 hx)
        have hinner_fuel :
            potGen g univ (successors g nbr).length (insert nbr st.1) + 1 ≤ fuel := by
          rw [potGen] at hfuel ⊢
          simp only [List.length_cons, length_successors] at hfuel ⊢
          omega
        obtain ⟨i1, i2, i3⟩ := ih (successors g nbr) (insert nbr st.1, st.2 ++ [nbr])
          hsuccs_univ hinner_fuel
        set R := dfsGo g fuel (successors g nbr) (insert nbr st.1, st.2 ++ [nbr]) with hR
        have hRmono : insert nbr st.1 ⊆ R.1 := by
          rw [hR]
          exact dfsGo_visited_mono g fuel (successors g nbr)
            (insert nbr st.1, st.2 ++ [nbr])
        have houter_fuel : potGen g univ rest.length R.1 + 1 ≤ fuel := by
          have hmono := sum_mono_visited g univ (insert nbr st.1) R.1 hRmono
          rw [potGen] at hfuel ⊢
          simp only [List.length_cons] at hfuel
          omega
        obtain ⟨o1, o2, o3⟩ := ih rest R
          (fun x hx => hl x (List.mem_cons_of_mem _ hx)) houter_fuel
        have hRr : R.1 ⊆ (dfsGo g fuel rest R).1 := dfsGo_visited_mono g fuel rest R
        have hnbrR : nbr ∈ R.1 := hRmono (Finset.mem_insert_self _ _)
        refine ⟨?_, ?_, ?_⟩
        · intro a ha
          rcases List.mem_cons.1 ha with rfl | ha'
          · exact hRr hnbrR
          · exact o1 a ha'
        · intro x hx
          rcases o2 x hx with hxR | ⟨a, ha, hr⟩
          · rcases i2 x hxR with hxin | ⟨a, ha, hr⟩
            · rcases Finset.mem_insert.1 hxin with rfl | hxst
              · exact Or.inr ⟨x, List.mem_cons_self _ _, Relation.ReflTransGen.refl⟩
              · exact Or.inl hxst
            · refine Or.inr ⟨nbr, List.mem_cons_self _ _, ?_⟩
              exact Relation.ReflTransGen.head ((mem_successors g nbr a).1 ha) hr
          · exact Or.inr ⟨a, List.mem_cons_of_mem _ ha, hr⟩
        · intro x hx hxst y hy
          by_cases hxR : x ∈ R.1
          · by_cases hxnbr : x = nbr
            · subst hxnbr
              exact hRr (i1 y ((mem_successors g x y).2 hy))
            · have : x ∉ insert nbr st.1 := by
                intro hc
                rcases Finset.mem_insert.1 hc with h' | h'
                · exact hxnbr h'
                · exact hxst h'
              exact hRr (i3 x hxR this y hy)
          · exact o3 x hx hxR y hy

theorem dfsGo_orderset (g : Graph) :
    ∀ (fuel : Nat) (l : List Nat) (st : Finset Nat × List Nat),
      (∀ x, x ∈ st.2 ↔ x ∈ st.1) →
      ∀ x, x ∈ (dfsGo g fuel l st).2 ↔ x ∈ (dfsGo g fuel l st).1 := by
  intro fuel
  induction fuel with
  | zero => intro l st h x; exact h x
  | succ fuel ih =>
    intro l st h x
    match l with
    | [] => rw [dfsGo_nil]; exact h x
    | nbr :: rest =>
      by_cases hm : nbr ∈ st.1
      · rw [dfsGo_cons_mem g fuel nbr rest st hm]
        exact ih rest st h x
      · rw [dfsGo_cons_fresh g fuel nbr rest st hm]
        refine ih rest _ (fun y => ?_) x
        have := ih (successors g nbr) (insert nbr st.1, st.2 ++ [nbr]) (fun z => by
          simp only [List.mem_append, List.mem_singleton, Finset.mem_insert, h z, or_comm])
        exact this y

/-- The output of `dfs(start)` contains exactly the nodes reachable from
`start` by a path of length ≥ 1 (note `start` itself appears only when it
lies on a directed cycle). -/
theorem dfs_mem_iff (g : Graph) (start : Nat) (x : Nat) :
    x ∈ dfs g start ↔ Relation.TransGen (EdgeP g) start x := by
  have htarget : ∀ a b, EdgeP g a b → b ∈ targetsF g := fun a b h =>
    mem_targetsF_of_EdgeP g h
  have hl : ∀ y ∈ successors g start, y ∈ targetsF g := fun y hy =>
    htarget start y ((mem_successors g start y).1 hy)
  have hfuel : potGen g (targetsF g) (successors g start).length ∅ + 1 ≤
      dfsFuel g start := le_refl _
  obtain ⟨m1, m2, m3⟩ := dfsGo_master g (targetsF g) htarget (dfsFuel g start)
    (successors g start) (∅, []) hl hfuel
  have hos := dfsGo_orderset g (dfsFuel g start) (successors g start) (∅, [])
    (fun y => by simp) x
  rw [dfs, hos]
  constructor
  · intro hx
    rcases m2 x hx with h' | ⟨a, ha, hr⟩
    · exact absurd h' (Finset.not_mem_empty x)
    · exact Relation.TransGen.head' ((mem_successors g start a).1 ha) hr
  · intro hx
    rcases Relation.TransGen.head'_iff.1 hx with ⟨b, hb, hbr⟩
    have hbmem : b ∈ (dfsGo g (dfsFuel g start) (successors g start) (∅, [])).1 :=
      m1 b ((mem_successors g start b).2 hb)
    have hstep : ∀ z, Relation.ReflTransGen (EdgeP g) b z →
        z ∈ (dfsGo g (dfsFuel g start) (successors g start) (∅, [])).1 := by
      intro z hz
      induction hz with
      | refl => exact hbmem
      | tail hstep2 hedge => exact m3 _ (by assumption) (Finset.not_mem_empty _) _ hedge
    exact hstep x hbr

/-! ### BFS: fold lemmas, ghost loop with its visited set, master lemma -/

/-- Ghost variant of `bfsLoop` that also returns the final visited set. -/
def bfsLoopV (g : Graph) : Nat → List Nat → Finset Nat → List Nat → List Nat × Finset Nat
  | 0, _, visited, out => (out, visited)
  | _ + 1, [], visited, out => (out, visited)
  | fuel + 1, node :: queue, visited, out =>
    let st := (successors g node).foldl enqueueFresh (queue, visited)
    bfsLoopV g fuel st.1 st.2 (out ++ [node])

theorem bfsLoop_eq_V (g : Graph) :
    ∀ (fuel : Nat) (q : List Nat) (v : Finset Nat) (out : List Nat),
      bfsLoop g fuel q v out = (bfsLoopV g fuel q v out).1 := by
  intro fuel
  induction fuel with
  | zero => intro q v out; rfl
  | succ fuel ih =>
    intro q v out
    match q with
    | [] => rfl
    | node :: qtail => exact ih _ _ _

theorem bfsLoopV_cons (g : Graph) (fuel : Nat) (node : Nat) (q : List Nat)
    (v : Finset Nat) (out : List Nat) :
    bfsLoopV g (fuel + 1) (node :: q) v out =
      bfsLoopV g fuel ((successors g node).foldl enqueueFresh (q, v)).1
        ((successors g node).foldl enqueueFresh (q, v)).2 (out ++ [node]) := rfl

theorem bfsLoopV_nil (g : Graph) (fuel : Nat) (visited : Finset Nat) (out : List Nat) :
    bfsLoopV g fuel [] visited out = (out, visited) := by
  cases fuel <;> rfl

theorem enqueue_fold_visited (l : List Nat) (q : List Nat) (v : Finset Nat) :
    (l.foldl enqueueFresh (q, v)).2 = v ∪ l.toFinset := by
  induction l generalizing q v with
  | nil => simp
  | cons nbr rest ih =>
    rw [List.foldl_cons]
    by_cases h : nbr ∈ v
    · rw [show enqueueFresh (q, v) nbr = (q, v) from by simp [enqueueFresh, h], ih]
      ext x
      simp only [Finset.mem_union, List.mem_toFinset, List.toFinset_cons,
        Finset.mem_insert, List.mem_cons]
      constructor
      · rintro (hx | hx)
        · exact Or.inl hx
        · exact Or.inr (Or.inr hx)
      · rintro (hx | hx | hx)
        · exact Or.inl hx
        · exact Or.inl (hx ▸ h)
        · exact Or.inr hx
    · rw [show enqueueFresh (q, v) nbr = (q ++ [nbr], insert nbr v) from by
        simp [enqueueFresh, h], ih]
      ext x
      simp only [Finset.mem_union, Finset.mem_insert, List.mem_toFinset,
        List.toFinset_cons, List.mem_cons]
      tauto

theorem enqueue_fold_queue_mem (l : List Nat) (q : List Nat) (v : Finset Nat) (y : Nat) :
    y ∈ (l.foldl enqueueFresh (q, v)).1 ↔ y ∈ q ∨ (y ∈ l ∧ y ∉ v) := by
  induction l generalizing q v with
  | nil => simp
  | cons nbr rest ih =>
    rw [List.foldl_cons]
    by_cases h : nbr ∈ v
    · rw [show enqueueFresh (q, v) nbr = (q, v) from by simp [enqueueFresh, h], ih]
      constructor
      · rintro (hq | ⟨hr, hv⟩)
        · exact Or.inl hq
        · exact Or.inr ⟨List.mem_cons_of_mem _ hr, hv⟩
      · rintro (hq | ⟨hc, hv⟩)
        · exact Or.inl hq
        · rcases List.mem_cons.1 hc with rfl | hr
          · exact absurd h hv
          · exact Or.inr ⟨hr, hv⟩
    · rw [show enqueueFresh (q, v) nbr = (q ++ [nbr], insert nbr v) from by
        simp [enqueueFresh, h], ih]
      constructor
      · rintro (hq | ⟨hr, hv⟩)
        · rcases List.mem_append.1 hq with hq' | hq'
          · exact Or.inl hq'
          · have hy := List.mem_singleton.1 hq'
            refine Or.inr ⟨List.mem_cons.2 (Or.inl hy), ?_⟩
            rw [hy]
            exact h
        · have hynbr : y ≠ nbr := fun hy => hv (hy ▸ Finset.mem_insert_self _ _)
          have hyv : y ∉ v := fun hy => hv (Finset.mem_insert_of_mem hy)
          exact Or.inr ⟨List.mem_cons_of_mem _ hr, hyv⟩
      · rintro (hq | ⟨hc, hv⟩)
        · exact Or.inl (List.mem_append.2 (Or.inl hq))
        · rcases List.mem_cons.1 hc with rfl | hr
          · exact Or.inl (List.mem_append.2 (Or.inr (List.mem_singleton.2 rfl)))
          · by_cases hynbr : y = nbr
            · exact Or.inl (List.mem_append.2 (Or.inr (List.mem_singleton.2 hynbr)))
            · refine Or.inr ⟨hr, fun hy => ?_⟩
              rcases Finset.mem_insert.1 hy with h' | h'
              · exact hynbr h'
              · exact hv h'

theorem enqueue_fold_pot (g : Graph) (univ : Finset Nat) :
    ∀ (l q : List Nat) (v : Finset Nat), (∀ x ∈ l, x ∈ univ) →
    (l.foldl enqueueFresh (q, v)).1.length +
      Finset.sum (univ \ (l.foldl enqueueFresh (q, v)).2) (fun n => outdegA g n + 1) ≤
    q.length + Finset.sum (univ \ v) (fun n => outdegA g n + 1) := by
  intro l
  induction l with
  | nil => intro q v _; exact le_refl _
  | cons nbr rest ih =>
    intro q v hl
    rw [List.foldl_cons]
    by_cases h : nbr ∈ v
    · rw [show enqueueFresh (q, v) nbr = (q, v) from by simp [enqueueFresh, h]]
      exact ih q v (fun x hx => hl x (List.mem_cons_of_mem _ hx))
    · rw [show enqueueFresh (q, v) nbr = (q ++ [nbr], insert nbr v) from by
        simp [enqueueFresh, h]]
      have hstep := ih (q ++ [nbr]) (insert nbr v)
        (fun x hx => hl x (List.mem_cons_of_mem _ hx))
      have hsum := sum_sdiff_insert g univ v nbr (hl nbr (List.mem_cons_self _ _)) h
      simp only [List.length_append, List.length_singleton] at hstep
      omega

theorem seed_fold_queue (l : List Nat) (q : List Nat) (v : Finset Nat) :
    (l.foldl seedStep (q, v)).1 = q ++ l := by
  induction l generalizing q v with
  | nil => simp
  | cons nbr rest ih =>
    rw [List.foldl_cons, show seedStep (q, v) nbr = (q ++ [nbr], insert nbr v) from rfl,
      ih]
    simp

theorem seed_fold_visited (l : List Nat) (q : List Nat) (v : Finset Nat) :
    (l.foldl seedStep (q, v)).2 = v ∪ l.toFinset := by
  induction l generalizing q v with
  | nil => simp
  | cons nbr rest ih =>
    rw [List.foldl_cons, show seedStep (q, v) nbr = (q ++ [nbr], insert nbr v) from rfl,
      ih]
    ext x
    simp only [Finset.mem_union, Finset.mem_insert, List.mem_toFinset,
      List.toFinset_cons, List.mem_cons]
    tauto

/-- Master invariant lemma for the BFS drain loop (over the ghost variant
returning the final visited set). -/
theorem bfsLoopV_master (g : Graph) (start : Nat) (univ : Finset Nat)
    (htarget : ∀ a b, EdgeP g a b → b ∈ univ) :
    ∀ (fuel : Nat) (queue : List Nat) (visited : Finset Nat) (out : List Nat),
      (∀ x ∈ queue, x ∈ univ) →
      potGen g univ queue.length visited + 1 ≤ fuel →
      (∀ x, x ∈ visited ↔ x = start ∨ x ∈ out ∨ x ∈ queue) →
      (∀ x ∈ out, ∀ y, EdgeP g x y → y ∈ visited) →
      (∀ y, EdgeP g start y → y ∈ visited) →
      (∀ x, x ∈ out ∨ x ∈ queue → Relation.TransGen (EdgeP g) start x) →
      ((start ∈ out ∨ start ∈ queue) → EdgeP g start start) →
      ((∀ x, x ∈ (bfsLoopV g fuel queue visited out).2 ↔
          x = start ∨ x ∈ (bfsLoopV g fuel queue visited out).1) ∧
       (∀ x ∈ (bfsLoopV g fuel queue visited out).1, ∀ y, EdgeP g x y →
          y ∈ (bfsLoopV g fuel queue visited out).2) ∧
       (∀ y, EdgeP g start y → y ∈ (bfsLoopV g fuel queue visited out).2) ∧
       (∀ x ∈ (bfsLoopV g fuel queue visited out).1,
          Relation.TransGen (EdgeP g) start x) ∧
       (start ∈ (bfsLoopV g fuel queue visited out).1 → EdgeP g start start) ∧
       (∀ x, x ∈ out ∨ x ∈ queue → x ∈ (bfsLoopV g fuel queue visited out).1)) := by
  intro fuel
  induction fuel with
  | zero => intro queue visited out _ hfuel _ _ _ _ _; omega
  | succ fuel ih =>
    intro queue visited out huniv hfuel hV hCl hSCl hSA hSS
    match queue with
    | [] =>
      rw [bfsLoopV_nil]
      refine ⟨?_, hCl, hSCl, ?_, ?_, ?_⟩
      · intro x
        rw [show ((out, visited) : List Nat × Finset Nat).2 = visited from rfl,
          show ((out, visited) : List Nat × Finset Nat).1 = out from rfl, hV x]
        simp
      · intro x hx
        exact hSA x (Or.inl hx)
      · intro hs
        exact hSS (Or.inl hs)
      · intro x hx
        rcases hx with hx | hx
        · exact hx
        · exact absurd hx (List.not_mem_nil x)
    | node :: qtail =>
      rw [bfsLoopV_cons]
      set l := successors g node with hldef
      have hv2 : (l.foldl enqueueFresh (qtail, visited)).2 = visited ∪ l.toFinset :=
        enqueue_fold_visited l qtail visited
      have hq1 : ∀ y, y ∈ (l.foldl enqueueFresh (qtail, visited)).1 ↔
          y ∈ qtail ∨ (y ∈ l ∧ y ∉ visited) := fun y =>
        enqueue_fold_queue_mem l qtail visited y
      have hlsucc : ∀ y ∈ l, EdgeP g node y := fun y hy =>
        (mem_successors g node y).1 (hldef ▸ hy)
      have hnode_sa : Relation.TransGen (EdgeP g) start node :=
        hSA node (Or.inr (List.mem_cons_self _ _))
      have hstart_vis : start ∈ visited := (hV start).2 (Or.inl rfl)
      have harg1 : ∀ x ∈ ((successors g node).foldl enqueueFresh (qtail, visited)).1,
          x ∈ univ := by
        intro x hx
        rcases (hq1 x).1 hx with hx' | ⟨hx', _⟩
        · exact huniv x (List.mem_cons_of_mem _ hx')
        · exact htarget node x (hlsucc x hx')
      have harg2 : potGen g univ
          ((successors g node).foldl enqueueFresh (qtail, visited)).1.length
          ((successors g node).foldl enqueueFresh (qtail, visited)).2 + 1 ≤ fuel := by
        have hpot := enqueue_fold_pot g univ l qtail visited
          (fun x hx => htarget node x (hlsucc x hx))
        rw [potGen] at hfuel ⊢
        simp only [List.length_cons] at hfuel
        rw [← hldef]
        omega
      have harg3 : ∀ x, x ∈ ((successors g node).foldl enqueueFresh (qtail, visited)).2 ↔
          x = start ∨ x ∈ out ++ [node] ∨
            x ∈ ((successors g node).foldl enqueueFresh (qtail, visited)).1 := by
        intro x
        rw [← hldef, hv2]
        constructor
        · intro hx
          rcases Finset.mem_union.1 hx with hx' | hx'
          · rcases (hV x).1 hx' with h' | h' | h'
            · exact Or.inl h'
            · exact Or.inr (Or.inl (List.mem_append.2 (Or.inl h')))
            · rcases List.mem_cons.1 h' with rfl | h''
              · exact Or.inr (Or.inl (List.mem_append.2 (Or.inr
                  (List.mem_singleton.2 rfl))))
              · exact Or.inr (Or.inr ((hq1 x).2 (Or.inl h'')))
          · by_cases hxv : x ∈ visited
            · rcases (hV x).1 hxv with h' | h' | h'
              · exact Or.inl h'
              · exact Or.inr (Or.inl (List.mem_append.2 (Or.inl h')))
              · rcases List.mem_cons.1 h' with rfl | h''
                · exact Or.inr (Or.inl (List.mem_append.2 (Or.inr
                    (List.mem_singleton.2 rfl))))
                · exact Or.inr (Or.inr ((hq1 x).2 (Or.inl h'')))
            · exact Or.inr (Or.inr ((hq1 x).2 (Or.inr
                ⟨List.mem_toFinset.1 hx', hxv⟩)))
        · intro hx
          rcases hx with rfl | hx | hx
          · exact Finset.mem_union_left _ hstart_vis
          · rcases List.mem_append.1 hx with h' | h'
            · exact Finset.mem_union_left _ ((hV x).2 (Or.inr (Or.inl h')))
            · rw [List.mem_singleton.1 h']
              exact Finset.mem_union_left _ ((hV node).2 (Or.inr (Or.inr
                (List.mem_cons_self _ _))))
          · rcases (hq1 x).1 hx with h' | ⟨h', _⟩
            · exact Finset.mem_union_left _ ((hV x).2 (Or.inr (Or.inr
                (List.mem_cons_of_mem _ h'))))
            · exact Finset.mem_union_right _ (List.mem_toFinset.2 h')
      have harg4 : ∀ x ∈ out ++ [node], ∀ y, EdgeP g x y →
          y ∈ ((successors g node).foldl enqueueFresh (qtail, visited)).2 := by
        intro x hx y hy
        rw [← hldef, hv2]
        rcases List.mem_append.1 hx with h' | h'
        · exact Finset.mem_union_left _ (hCl x h' y hy)
        · rw [List.mem_singleton.1 h'] at hy
          exact Finset.mem_union_right _ (List.mem_toFinset.2
            ((mem_successors g node y).2 hy))
      have harg5 : ∀ y, EdgeP g start y →
          y ∈ ((successors g node).foldl enqueueFresh (qtail, visited)).2 := by
        intro y hy
        rw [← hldef, hv2]
        exact Finset.mem_union_left _ (hSCl y hy)
      have harg6 : ∀ x, x ∈ out ++ [node] ∨
          x ∈ ((successors g node).foldl enqueueFresh (qtail, visited)).1 →
          Relation.TransGen (EdgeP g) start x := by
        intro x hx
        rcases hx with hx | hx
        · rcases List.mem_append.1 hx with h' | h'
          · exact hSA x (Or.inl h')
          · rw [List.mem_singleton.1 h']
            exact hnode_sa
        · rcases (hq1 x).1 hx with h' | ⟨h', _⟩
          · exact hSA x (Or.inr (List.mem_cons_of_mem _ h'))
          · exact Relation.TransGen.tail hnode_sa (hlsucc x h')
      have harg7 : (start ∈ out ++ [node] ∨
          start ∈ ((successors g node).foldl enqueueFresh (qtail, visited)).1) →
          EdgeP g start start := by
        intro hs
        rcases hs with hs | hs
        · rcases List.mem_append.1 hs with h' | h'
          · exact hSS (Or.inl h')
          · have heq := List.mem_singleton.1 h'
            refine hSS (Or.inr ?_)
            rw [heq]
            exact List.mem_cons_self _ _
        · rcases (hq1 start).1 hs with h' | ⟨_, h2⟩
          · exact hSS (Or.inr (List.mem_cons_of_mem _ h'))
          · exact absurd hstart_vis h2
      obtain ⟨c1, c2, c3, c4, c5, c6⟩ := ih
        ((successors g node).foldl enqueueFresh (qtail, visited)).1
        ((successors g node).foldl enqueueFresh (qtail, visited)).2
        (out ++ [node]) harg1 harg2 harg3 harg4 harg5 harg6 harg7
      refine ⟨c1, c2, c3, c4, c5, ?_⟩
      intro x hx
      refine c6 x ?_
      rcases hx with hx | hx
      · exact Or.inl (List.mem_append.2 (Or.inl hx))
      · rcases List.mem_cons.1 hx with hx2 | hx'
        · rw [hx2]
          exact Or.inl (List.mem_append.2 (Or.inr (List.mem_singleton.2 rfl)))
        · exact Or.inr ((hq1 x).2 (Or.inl hx'))

theorem bfsLoopV_out_mem (g : Graph) (start : Nat) (univ : Finset Nat)
    (htarget : ∀ a b, EdgeP g a b → b ∈ univ) (fuel : Nat) (queue : List Nat)
    (visited : Finset Nat) (out : List Nat)
    (huniv : ∀ x ∈ queue, x ∈ univ)
    (hfuel : potGen g univ queue.length visited + 1 ≤ fuel)
    (hV : ∀ x, x ∈ visited ↔ x = start ∨ x ∈ out ∨ x ∈ queue)
    (hCl : ∀ x ∈ out, ∀ y, EdgeP g x y → y ∈ visited)
    (hSCl : ∀ y, EdgeP g start y → y ∈ visited)
    (hSA : ∀ x, x ∈ out ∨ x ∈ queue → Relation.TransGen (EdgeP g) start x)
    (hSS : (start ∈ out ∨ start ∈ queue) → EdgeP g start start)
    (hstart_in : EdgeP g start start → start ∈ out ∨ start ∈ queue) (x : Nat) :
    x ∈ (bfsLoopV g fuel queue visited out).1 ↔
      (Relation.TransGen (EdgeP g) start x ∧ (x = start → EdgeP g start start)) := by
  obtain ⟨c1, c2, c3, c4, c5, c6⟩ :=
    bfsLoopV_master g start univ htarget fuel queue visited out huniv hfuel hV hCl
      hSCl hSA hSS
  constructor
  · intro hx
    exact ⟨c4 x hx, fun hxs => c5 (hxs ▸ hx)⟩
  · rintro ⟨htrans, hself⟩
    have hrtg : ∀ z, Relation.ReflTransGen (EdgeP g) start z →
        z ∈ (bfsLoopV g fuel queue visited out).2 := by
      intro z hz
      induction hz with
      | refl => exact (c1 start).2 (Or.inl rfl)
      | tail hstep hedge ih2 =>
        rcases (c1 _).1 ih2 with heq | hb
        · exact c3 _ (heq ▸ hedge)
        · exact c2 _ hb _ hedge
    have hx2 := hrtg x htrans.to_reflTransGen
    rcases (c1 x).1 hx2 with rfl | hx1
    · exact c6 x (hstart_in (hself rfl))
    · exact hx1

/-- The output of a fully consumed `bfs(start)` contains exactly the nodes
reachable from `start` by a path of length ≥ 1 — except that `start` itself
is yielded only when it is its own direct successor (it is pre-marked
visited, but the seeding loop enqueues all successors unconditionally). -/
theorem bfs_mem_iff (g : Graph) (start x : Nat) :
    x ∈ bfs g start ↔
      (Relation.TransGen (EdgeP g) start x ∧ (x = start → EdgeP g start start)) := by
  have htarget : ∀ a b, EdgeP g a b → b ∈ targetsF g := fun a b h =>
    mem_targetsF_of_EdgeP g h
  have hq0 : (bfsSeed g start).1 = successors g start := by
    rw [bfsSeed, seed_fold_queue]
    simp
  have hv0 : (bfsSeed g start).2 = {start} ∪ (successors g start).toFinset := by
    rw [bfsSeed, seed_fold_visited]
  rw [bfs, bfsLoop_eq_V, hq0, hv0]
  refine bfsLoopV_out_mem g start (targetsF g) htarget (bfsFuel g start)
    (successors g start) ({start} ∪ (successors g start).toFinset) []
    (fun y hy => htarget start y ((mem_successors g start y).1 hy))
    ?_ ?_ ?_ ?_ ?_ ?_ ?_ x
  · rw [bfsFuel, potGen, potGen]
    have := sum_mono_visited g (targetsF g) ∅
      ({start} ∪ (successors g start).toFinset) (Finset.empty_subset _)
    omega
  · intro y
    simp only [Finset.mem_union, Finset.mem_singleton, List.mem_toFinset,
      List.not_mem_nil, false_or]
  · intro y hy
    exact absurd hy (List.not_mem_nil y)
  · intro y hy
    exact Finset.mem_union_right _ (List.mem_toFinset.2 ((mem_successors g start y).2 hy))
  · intro y hy
    rcases hy with hy | hy
    · exact absurd hy (List.not_mem_nil y)
    · exact Relation.TransGen.single ((mem_successors g start y).1 hy)
  · intro hs
    rcases hs with hs | hs
    · exact absurd hs (List.not_mem_nil start)
    · exact (mem_successors g start start).1 hs
  · intro hss
    exact Or.inr ((mem_successors g start start).2 hss)

/-! ### Fuel stability: the chosen fuel bounds are sufficient -/

theorem hasPathLoop_stable (g : Graph) (goal : Nat) (univ : Finset Nat)
    (htarget : ∀ a b, EdgeP g a b → b ∈ univ) :
    ∀ (fuel : Nat) (stack : List Nat) (visited : Finset Nat),
      (∀ x ∈ stack, x ∈ univ) →
      potGen g univ stack.length visited + 1 ≤ fuel →
      hasPathLoop g goal fuel stack visited =
        hasPathLoop g goal (fuel + 1) stack visited := by
  intro fuel
  induction fuel with
  | zero => intro stack visited _ hfuel; omega
  | succ fuel ih =>
    intro stack visited hstack hfuel
    match stack with
    | [] => rfl
    | node :: rest =>
      by_cases hng : node = goal
      · simp [hasPathLoop, hng]
      · by_cases hnv : node ∈ visited
        · rw [show hasPathLoop g goal (fuel + 1) (node :: rest) visited =
              hasPathLoop g goal fuel rest visited from by
            simp [hasPathLoop, hng, hnv],
            show hasPathLoop g goal (fuel + 1 + 1) (node :: rest) visited =
              hasPathLoop g goal (fuel + 1) rest visited from by
            simp [hasPathLoop, hng, hnv]]
          refine ih rest visited (fun x hx => hstack x (List.mem_cons_of_mem _ hx)) ?_
          rw [potGen] at hfuel ⊢
          simp only [List.length_cons] at hfuel
          omega
        · rw [show hasPathLoop g goal (fuel + 1) (node :: rest) visited =
              hasPathLoop g goal fuel ((succKeys g node).reverse ++ rest)
                (insert node visited) from by
            simp [hasPathLoop, hng, hnv],
            show hasPathLoop g goal (fuel + 1 + 1) (node :: rest) visited =
              hasPathLoop g goal (fuel + 1) ((succKeys g node).reverse ++ rest)
                (insert node visited) from by
            simp [hasPathLoop, hng, hnv]]
          have hnode_univ : node ∈ univ := hstack node (List.mem_cons_self _ _)
          have hsum := sum_sdiff_insert g univ visited node hnode_univ hnv
          refine ih ((succKeys g node).reverse ++ rest) (insert node visited)
            (by
              intro x hx
              rcases List.mem_append.1 hx with hx' | hx'
              · exact htarget node x ((mem_succKeys g node x).1 (List.mem_reverse.1 hx'))
              · exact hstack x (List.mem_cons_of_mem _ hx')) ?_
          rw [potGen] at hfuel ⊢
          simp only [List.length_cons, List.length_append, List.length_reverse,
            length_succKeys] at hfuel ⊢
          omega

theorem bfsLoop_stable (g : Graph) (univ : Finset Nat)
    (htarget : ∀ a b, EdgeP g a b → b ∈ univ) :
    ∀ (fuel : Nat) (q : List Nat) (v : Finset Nat) (out : List Nat),
      (∀ x ∈ q, x ∈ univ) →
      potGen g univ q.length v + 1 ≤ fuel →
      bfsLoop g fuel q v out = bfsLoop g (fuel + 1) q v out := by
  intro fuel
  induction fuel with
  | zero => intro q v out _ hfuel; omega
  | succ fuel ih =>
    intro q v out huniv hfuel
    match q with
    | [] => rfl
    | node :: qtail =>
      have hq1 := fun y => enqueue_fold_queue_mem (successors g node) qtail v y
      have hlsucc : ∀ y ∈ successors g node, EdgeP g node y := fun y hy =>
        (mem_successors g node y).1 hy
      rw [show bfsLoop g (fuel + 1) (node :: qtail) v out =
          bfsLoop g fuel ((successors g node).foldl enqueueFresh (qtail, v)).1
            ((successors g node).foldl enqueueFresh (qtail, v)).2 (out ++ [node])
          from rfl,
        show bfsLoop g (fuel + 1 + 1) (node :: qtail) v out =
          bfsLoop g (fuel + 1) ((successors g node).foldl enqueueFresh (qtail, v)).1
            ((successors g node).foldl enqueueFresh (qtail, v)).2 (out ++ [node])
          from rfl]
      refine ih _ _ _ ?_ ?_
      · intro x hx
        rcases (hq1 x).1 hx with hx' | ⟨hx', _⟩
        · exact huniv x (List.mem_cons_of_mem _ hx')
        · exact htarget node x (hlsucc x hx')
      · have hpot := enqueue_fold_pot g univ (successors g node) qtail v
          (fun x hx => htarget node x (hlsucc x hx))
        rw [potGen] at hfuel ⊢
        simp only [List.length_cons] at hfuel
        omega

theorem has_path_fuel_irrelevant (g : Graph) (s t : Nat) (extra : Nat) :
    hasPathLoop g t (hpFuel g s + extra) [s] ∅ = has_path g s t := by
  induction extra with
  | zero => rfl
  | succ k ih =>
    rw [show hpFuel g s + (k + 1) = (hpFuel g s + k) + 1 from rfl,
      ← hasPathLoop_stable g t (insert s (targetsF g))
        (fun a b h => Finset.mem_insert_of_mem (mem_targetsF_of_EdgeP g h))
        (hpFuel g s + k) [s] ∅
        (by intro x hx; rw [List.mem_singleton.1 hx]; exact Finset.mem_insert_self _ _)
        (by rw [hpFuel, List.length_singleton]; omega)]
    exact ih

theorem dfs_fuel_irrelevant (g : Graph) (s : Nat) (extra : Nat) :
    (dfsGo g (dfsFuel g s + extra) (successors g s) (∅, [])).2 = dfs g s := by
  induction extra with
  | zero => rfl
  | succ k ih =>
    rw [show dfsFuel g s + (k + 1) = (dfsFuel g s + k) + 1 from rfl,
      ← dfsGo_stable g (targetsF g) (fun a b h => mem_targetsF_of_EdgeP g h)
        (dfsFuel g s + k) (successors g s) (∅, [])
        (fun y hy => mem_targetsF_of_EdgeP g ((mem_successors g s y).1 hy))
        (by
          rw [show potGen g (targetsF g) (successors g s).length
              ((∅ : Finset Nat), ([] : List Nat)).1 =
            potGen g (targetsF g) (successors g s).length ∅ from rfl, dfsFuel]
          omega)]
    exact ih

theorem bfs_fuel_irrelevant (g : Graph) (s : Nat) (extra : Nat) :
    bfsLoop g (bfsFuel g s + extra) (bfsSeed g s).1 (bfsSeed g s).2 [] = bfs g s := by
  have hq0 : (bfsSeed g s).1 = successors g s := by
    rw [bfsSeed, seed_fold_queue]
    simp
  induction extra with
  | zero => rfl
  | succ k ih =>
    rw [show bfsFuel g s + (k + 1) = (bfsFuel g s + k) + 1 from rfl,
      ← bfsLoop_stable g (targetsF g) (fun a b h => mem_targetsF_of_EdgeP g h)
        (bfsFuel g s + k) (bfsSeed g s).1 (bfsSeed g s).2 []
        (by
          rw [hq0]
          exact fun y hy => mem_targetsF_of_EdgeP g ((mem_successors g s y).1 hy))
        (by
          rw [bfsFuel, potGen, potGen, hq0]
          have := sum_mono_visited g (targetsF g) ∅ (bfsSeed g s).2
            (Finset.empty_subset _)
          omega)]
    exact ih

/-! ### Claim theorems: C5, C6, C10 -/

/-- C5 counterexample: on the scenario graph A→B, B→C, A→C (A,B,C = 0,1,2),
`dfs(A)` returns `[B, C]` and `bfs(A)` yields `[B, C]` — the start node is
not included as the first element, contrary to the claim's `[A, B, C]`. -/
theorem C5_counterexample :
    dfs (add_edge (add_edge (add_edge Graph.empty 0 1 none) 1 2 none) 0 2 none) 0 =
      [1, 2] ∧
    bfs (add_edge (add_edge (add_edge Graph.empty 0 1 none) 1 2 none) 0 2 none) 0 =
      [1, 2] ∧
    ([1, 2] : List Nat) ≠ [0, 1, 2] := by
  refine ⟨by decide, by decide, by decide⟩

/-- C5, amended: both traversals exclude `start` from the front of the
output (the docstrings say "excluding start"): on the scenario graph
`dfs(A) = bfs(A) = [B, C]`; and `dfs` of a start node absent from a
well-formed graph returns the empty sequence without an error. -/
theorem C5_amended_theorem :
    dfs (add_edge (add_edge (add_edge Graph.empty 0 1 none) 1 2 none) 0 2 none) 0 =
      [1, 2] ∧
    bfs (add_edge (add_edge (add_edge Graph.empty 0 1 none) 1 2 none) 0 2 none) 0 =
      [1, 2] ∧
    (∀ g s, Wf g → containsA g.nodes s = false → dfs g s = []) := by
  refine ⟨by decide, by decide, ?_⟩
  intro g s hwf hn
  have hse : findA g.edges s = none := by
    rw [findA_eq_none_iff]
    intro hmem
    have hc := hwf.2.2.2.1 s hmem
    rw [hc] at hn
    exact Bool.noConfusion hn
  have hsucc : successors g s = [] := by
    rw [successors, succKeys_eq_keys_innerOf, innerOf, hse]
    rfl
  rw [dfs, hsucc, dfsGo_nil]

/-- C5 amended, witnessed: `dfs` from an absent start on the empty graph. -/
theorem C5_amended_witness : dfs Graph.empty 5 = [] :=
  C5_amended_theorem.2.2 Graph.empty 5 (by decide) (by decide)

/-- C6 counterexample: on the two-cycle 0→1, 1→0, `dfs(0) = [1, 0]` revisits
the start node (it is never pre-marked visited) while `bfs(0) = [1]` never
yields it (it is pre-marked), so the two traversals do not visit the same
set of nodes. -/
theorem C6_counterexample :
    0 ∈ dfs (add_edge (add_edge Graph.empty 0 1 none) 1 0 none) 0 ∧
    0 ∉ bfs (add_edge (add_edge Graph.empty 0 1 none) 1 0 none) 0 := by
  refine ⟨by decide, by decide⟩

/-- C6, amended: `dfs(start)` and `bfs(start)` visit the same nodes other
than `start` itself — both visit exactly the nodes reachable from `start`
by a nonempty path; `start` appears in `dfs(start)` iff it lies on a
directed cycle, but in `bfs(start)` only if it has a self-loop.  (Both
functions of the embedding are pure, so repeated calls on an unmutated
graph trivially return identical output.) -/
theorem C6_amended_theorem (g : Graph) (start x : Nat) :
    ((x ≠ start) → (x ∈ dfs g start ↔ x ∈ bfs g start)) ∧
    (x ∈ dfs g start ↔ Relation.TransGen (EdgeP g) start x) ∧
    (x ∈ bfs g start ↔
      (Relation.TransGen (EdgeP g) start x ∧ (x = start → EdgeP g start start))) := by
  refine ⟨?_, dfs_mem_iff g start x, bfs_mem_iff g start x⟩
  intro hne
  rw [dfs_mem_iff g start x, bfs_mem_iff g start x]
  constructor
  · intro h
    exact ⟨h, fun heq => absurd heq hne⟩
  · rintro ⟨h, _⟩
    exact h

/-- C6 amended, witnessed on the two-cycle: node 1 ≠ start is in both
traversals. -/
theorem C6_amended_witness :
    1 ∈ dfs (add_edge (add_edge Graph.empty 0 1 none) 1 0 none) 0 ↔
    1 ∈ bfs (add_edge (add_edge Graph.empty 0 1 none) 1 0 none) 0 :=
  (C6_amended_theorem (add_edge (add_edge Graph.empty 0 1 none) 1 0 none) 0 1).1
    (by decide)

/-- C10: the visited-marking loops of `dfs`, `bfs` and `_has_path` all
terminate on every finite graph, cyclic or not: the fuel bound each
embedding uses is sufficient, so granting any additional fuel leaves the
result unchanged. -/
theorem C10_theorem (g : Graph) (s t : Nat) (extra : Nat) :
    hasPathLoop g t (hpFuel g s + extra) [s] ∅ = has_path g s t ∧
    (dfsGo g (dfsFuel g s + extra) (successors g s) (∅, [])).2 = dfs g s ∧
    bfsLoop g (bfsFuel g s + extra) (bfsSeed g s).1 (bfsSeed g s).2 [] = bfs g s :=
  ⟨has_path_fuel_irrelevant g s t extra, dfs_fuel_irrelevant g s extra,
    bfs_fuel_irrelevant g s extra⟩

/-! ### Kahn's algorithm: semantic indegree bookkeeping -/

/-- Number of stored edges into `n` whose source has not yet been output:
the value Kahn's loop keeps in `indegree[n]`. -/
def remIndeg (g : Graph) (order : List Nat) (n : Nat) : Nat :=
  ((keysA g.edges).filter (fun p => edgeB g p n && !(decide (p ∈ order)))).length

theorem EdgeP_source_mem {g : Graph} {a b : Nat} (h : EdgeP g a b) :
    a ∈ keysA g.edges := by
  rw [EdgeP, edgeB_eq_findA_innerOf] at h
  rcases hfind : findA g.edges a with _ | inner
  · rw [innerOf, hfind] at h
    simp [findA] at h
  · rw [← findA_isSome_iff, hfind]
    rfl

theorem EdgeP_target_mem {g : Graph} (hwf : Wf g) {a b : Nat} (h : EdgeP g a b) :
    b ∈ keysA g.nodes := by
  rw [EdgeP, edgeB_eq_findA_innerOf] at h
  rcases hfind : findA g.edges a with _ | inner
  · rw [innerOf, hfind] at h
    simp [findA] at h
  · rw [innerOf, hfind] at h
    rcases Option.isSome_iff_exists.1 h with ⟨w, hw⟩
    have hmem : (a, inner) ∈ g.edges := mem_of_findA_eq_some hfind
    have hbmem : (b, w) ∈ inner := mem_of_findA_eq_some hw
    exact (containsA_iff _ _).1 (hwf.2.2.2.2.2 (a, inner) hmem (b, w) hbmem)

theorem successors_nodup (g : Graph) (hwf : Wf g) (node : Nat) :
    (successors g node).Nodup := by
  have hkeys : (succKeys g node).Nodup := by
    rw [succKeys_eq_keys_innerOf, innerOf]
    rcases hfind : findA g.edges node with _ | inner
    · simp [keysA_nil]
    · exact hwf.2.2.1 (node, inner) (mem_of_findA_eq_some hfind)
  rw [successors]
  exact (List.perm_insertionSort _ _).nodup_iff.2 hkeys

/-- Dropping one distinguished element from a filter over a duplicate-free
list: if `f'` agrees with `f` away from `node` and refuses `node`, the
filtered lengths differ by whether `node` passed `f`. -/
theorem filter_length_drop_one :
    ∀ (L : List Nat), L.Nodup → ∀ (node : Nat) (f f' : Nat → Bool),
      (∀ p, p ≠ node → f' p = f p) → f' node = false →
      (L.filter f').length + (if node ∈ L ∧ f node = true then 1 else 0) =
        (L.filter f).length := by
  intro L
  induction L with
  | nil => intro _ node f f' _ _; simp
  | cons a as ih =>
    intro hnd node f f' hne hnode
    have hnd' : as.Nodup := (List.nodup_cons.1 hnd).2
    by_cases ha : a = node
    · subst ha
      have hnotin : a ∉ as := (List.nodup_cons.1 hnd).1
      have hfilts : as.filter f' = as.filter f := by
        refine List.filter_congr ?_
        intro p hp
        exact hne p (fun hpe => hnotin (hpe ▸ hp))
      rw [List.filter_cons, List.filter_cons, hnode, hfilts]
      by_cases hf : f a = true
      · simp [hf, hnotin]
      · simp [hf, hnotin]
    · have hstep := ih hnd' node f f' hne hnode
      rw [List.filter_cons, List.filter_cons, hne a ha]
      have hmem : (node ∈ a :: as ∧ f node = true) ↔ (node ∈ as ∧ f node = true) := by
        constructor
        · rintro ⟨hm, hf⟩
          rcases List.mem_cons.1 hm with h' | h'
          · exact absurd h'.symm ha
          · exact ⟨h', hf⟩
        · rintro ⟨hm, hf⟩
          exact ⟨List.mem_cons_of_mem _ hm, hf⟩
      rw [if_congr hmem rfl rfl]
      by_cases hf : f a = true <;> simp [hf] <;> omega

theorem remIndeg_append_of_edge (g : Graph) (hwf : Wf g) (order : List Nat)
    (node n : Nat) (hE : EdgeP g node n) (hnode : node ∉ order) :
    remIndeg g order n = remIndeg g (order ++ [node]) n + 1 := by
  have hnd : (keysA g.edges).Nodup := hwf.2.1
  have h := filter_length_drop_one (keysA g.edges) hnd node
    (fun p => edgeB g p n && !(decide (p ∈ order)))
    (fun p => edgeB g p n && !(decide (p ∈ order ++ [node])))
    (fun p hp => by
      by_cases hmem : p ∈ order
      · simp [hmem]
      · simp [hmem, hp])
    (by simp)
  rw [remIndeg, remIndeg, ← h]
  have hcond : (edgeB g node n && !(decide (node ∈ order))) = true := by
    rw [EdgeP] at hE
    simp [hE, hnode]
  rw [if_pos ⟨EdgeP_source_mem hE, hcond⟩]

theorem remIndeg_append_of_not_edge (g : Graph) (order : List Nat)
    (node n : Nat) (hE : ¬ EdgeP g node n) :
    remIndeg g (order ++ [node]) n = remIndeg g order n := by
  rw [remIndeg, remIndeg]
  congr 1
  refine List.filter_congr ?_
  intro p hp
  by_cases hpn : p = node
  · subst hpn
    have : edgeB g p n = false := by
      rw [EdgeP] at hE
      exact Bool.not_eq_true _ ▸ (by simpa using hE)
    simp [this]
  · by_cases hmem : p ∈ order
    · simp [hmem]
    · simp [hmem, hpn]

theorem remIndeg_zero_preds (g : Graph) (order : List Nat) (n : Nat)
    (h : remIndeg g order n = 0) : ∀ p, EdgeP g p n → p ∈ order := by
  intro p hp
  by_contra hpo
  have hmem : p ∈ (keysA g.edges).filter
      (fun q => edgeB g q n && !(decide (q ∈ order))) := by
    refine List.mem_filter.2 ⟨EdgeP_source_mem hp, ?_⟩
    rw [EdgeP] at hp
    simp [hp, hpo]
  rw [remIndeg] at h
  rw [List.length_eq_zero] at h
  rw [h] at hmem
  exact List.not_mem_nil p hmem

theorem remIndeg_pos_preds (g : Graph) (order : List Nat) (n : Nat)
    (h : remIndeg g order n ≠ 0) :
    ∃ p, EdgeP g p n ∧ p ∉ order ∧ p ∈ keysA g.edges := by
  rw [remIndeg] at h
  rcases hf : (keysA g.edges).filter
      (fun q => edgeB g q n && !(decide (q ∈ order))) with _ | ⟨p, rest⟩
  · rw [hf] at h
    simp at h
  · have hp : p ∈ (keysA g.edges).filter
        (fun q => edgeB g q n && !(decide (q ∈ order))) := by
      rw [hf]
      exact List.mem_cons_self _ _
    obtain ⟨hmem, hcond⟩ := List.mem_filter.1 hp
    simp only [Bool.and_eq_true, Bool.not_eq_true', decide_eq_false_iff_not] at hcond
    exact ⟨p, hcond.1, hcond.2, hmem⟩

/-- Effect of the inner Kahn fold over a duplicate-free list of children:
each listed counter is decremented once, and exactly the children whose
counter hits zero (evaluated against the initial mapping) are appended. -/
theorem kahnFold_spec :
    ∀ (cs : List Nat) (q : List Nat) (ind : List (Nat × Int)), cs.Nodup →
      ((cs.foldl kahnStep (q, ind)).1 =
        q ++ cs.filter (fun c => decide ((findA ind c).getD 0 - 1 = 0))) ∧
      (∀ n, findA (cs.foldl kahnStep (q, ind)).2 n =
        if n ∈ cs then some ((findA ind n).getD 0 - 1) else findA ind n) := by
  intro cs
  induction cs with
  | nil => intro q ind _; refine ⟨by simp, fun n => by simp⟩
  | cons c rest ih =>
    intro q ind hnd
    obtain ⟨hcr, hnd'⟩ := List.nodup_cons.1 hnd
    rw [List.foldl_cons]
    have hstep : kahnStep (q, ind) c =
        (if (findA ind c).getD 0 - 1 = 0 then q ++ [c] else q,
          insertA ind c ((findA ind c).getD 0 - 1)) := rfl
    rw [hstep]
    obtain ⟨ih1, ih2⟩ := ih
      (if (findA ind c).getD 0 - 1 = 0 then q ++ [c] else q)
      (insertA ind c ((findA ind c).getD 0 - 1)) hnd'
    constructor
    · rw [ih1]
      have hrest : rest.filter
          (fun c2 => decide ((findA (insertA ind c ((findA ind c).getD 0 - 1)) c2).getD 0
            - 1 = 0)) =
          rest.filter (fun c2 => decide ((findA ind c2).getD 0 - 1 = 0)) := by
        refine List.filter_congr ?_
        intro p hp
        rw [findA_insertA_ne ind c p _ (fun hpc => hcr (hpc ▸ hp))]
      rw [hrest, List.filter_cons]
      by_cases hz : (findA ind c).getD 0 - 1 = 0
      · rw [if_pos hz]
        simp [hz]
      · rw [if_neg hz]
        simp [hz]
    · intro n
      rw [ih2 n]
      by_cases hn : n ∈ rest
      · rw [if_pos hn, if_pos (List.mem_cons_of_mem _ hn),
          findA_insertA_ne ind c n _ (fun hnc => hcr (hnc ▸ hn))]
      · rw [if_neg hn]
        by_cases hnc : n = c
        · subst hnc
          rw [if_pos (List.mem_cons_self _ _), findA_insertA_self]
        · rw [findA_insertA_ne ind c n _ (fun h => hnc h.symm),
            if_neg (by
              intro hmem
              rcases List.mem_cons.1 hmem with h' | h'
              · exact hnc h'
              · exact hn h')]

/-! ### The initial indegree mapping computed by `top_sort` -/

/-- All stored parent→child pairs' children, entry by entry. -/
def allChildren (g : Graph) : List Nat :=
  (g.edges.map (fun p => keysA p.2)).flatten

theorem initIndeg_eq_flatten (g : Graph) :
    initIndeg g = (allChildren g).foldl bumpA
      (g.nodes.map (fun p => (p.1, (0 : Int)))) := by
  rw [initIndeg, allChildren, List.foldl_flatten, List.foldl_map]
  congr 1
  funext ind p
  rw [keysA, List.foldl_map]

theorem findA_bumpFold :
    ∀ (cs : List Nat) (ind : List (Nat × Int)) (n : Nat) (r : Int),
      findA ind n = some r →
      findA (cs.foldl bumpA ind) n = some (r + (cs.count n : Int)) := by
  intro cs
  induction cs with
  | nil => intro ind n r h; simpa using h
  | cons c rest ih =>
    intro ind n r h
    rw [List.foldl_cons]
    by_cases hcn : c = n
    · subst hcn
      have hbump : findA (bumpA ind c) c = some (r + 1) := by
        rw [bumpA, h, findA_insertA_self]
        simp
      rw [ih (bumpA ind c) c (r + 1) hbump, List.count_cons_self]
      congr 1
      push_cast
      ring
    · have hbump : findA (bumpA ind c) n = some r := by
        rw [bumpA, findA_insertA_ne _ c n _ hcn, h]
      rw [ih (bumpA ind c) n r hbump, List.count_cons_of_ne (fun h' => hcn h'.symm)]

theorem findA_map_zero :
    ∀ (l : List (Nat × Val)) (n : Nat),
      findA (l.map (fun p => (p.1, (0 : Int)))) n =
        (findA l n).map (fun _ => (0 : Int)) := by
  intro l
  induction l with
  | nil => intro n; rfl
  | cons p rest ih =>
    intro n
    obtain ⟨a, b⟩ := p
    by_cases ha : a = n <;> simp [findA, ha, ih]

theorem count_allChildren (g : Graph) (hwf : Wf g) (n : Nat) :
    (allChildren g).count n = remIndeg g [] n := by
  have hcond : ∀ p, (edgeB g p n && !(decide (p ∈ ([] : List Nat)))) = edgeB g p n := by
    intro p
    simp
  rw [remIndeg, List.filter_congr (fun p _ => hcond p)]
  rw [allChildren]
  have hmain : ∀ (L : List (Nat × List (Nat × Val))), NodupKeys L →
      (∀ p ∈ L, NodupKeys p.2) →
      ((L.map (fun p => keysA p.2)).flatten).count n =
        ((keysA L).filter (fun p => (findA ((findA L p).getD []) n).isSome)).length := by
    intro L
    induction L with
    | nil => intro _ _; simp [keysA_nil]
    | cons e rest ihL =>
      intro hnd hinner
      obtain ⟨a, inner⟩ := e
      have hanotin : a ∉ keysA rest := by
        rw [NodupKeys, keysA_cons] at hnd
        exact (List.nodup_cons.1 hnd).1
      have hndrest : NodupKeys rest := by
        rw [NodupKeys, keysA_cons] at hnd
        exact (List.nodup_cons.1 hnd).2
      rw [List.map_cons, List.flatten_cons, List.count_append, keysA_cons,
        List.filter_cons]
      dsimp only
      have hfrest : (keysA rest).filter
          (fun p => (findA ((findA ((a, inner) :: rest) p).getD []) n).isSome) =
          (keysA rest).filter
          (fun p => (findA ((findA rest p).getD []) n).isSome) := by
        refine List.filter_congr ?_
        intro p hp
        have hpa : ¬ a = p := fun h => hanotin (h ▸ hp)
        rw [show findA ((a, inner) :: rest) p = findA rest p from by
          simp [findA, hpa]]
      rw [hfrest]
      have hca : findA ((a, inner) :: rest) a = some inner := by
        simp [findA]
      rw [hca]
      have hIH := ihL hndrest (fun p hp => hinner p (List.mem_cons_of_mem _ hp))
      have hinner_nd : (keysA inner).Nodup := hinner (a, inner) (List.mem_cons_self _ _)
      by_cases hn : n ∈ keysA inner
      · rw [if_pos (by
          rw [Option.getD_some, findA_isSome_iff]
          exact hn),
          List.length_cons, ← hIH, List.count_eq_one_of_mem hinner_nd hn]
        omega
      · rw [if_neg (by
          rw [Option.getD_some, findA_isSome_iff]
          exact hn),
          ← hIH, List.count_eq_zero.2 (fun h => hn (by
            rw [← findA_isSome_iff] at h ⊢
            exact h))]
        omega
  exact hmain g.edges hwf.2.1 hwf.2.2.1

theorem findA_eq_of_mem_nodup {β : Type} :
    ∀ (l : List (Nat × β)), NodupKeys l → ∀ (k : Nat) (v : β), (k, v) ∈ l →
      findA l k = some v := by
  intro l
  induction l with
  | nil => intro _ k v h; exact absurd h (List.not_mem_nil _)
  | cons p rest ih =>
    intro hnd k v h
    obtain ⟨a, b⟩ := p
    rw [NodupKeys, keysA_cons] at hnd
    obtain ⟨hanotin, hndrest⟩ := List.nodup_cons.1 hnd
    rcases List.mem_cons.1 h with h' | h'
    · have hak : a = k := (congrArg Prod.fst h').symm
      have hbv : b = v := (congrArg Prod.snd h').symm
      subst hak
      subst hbv
      simp [findA]
    · have hka : ¬ a = k := by
        intro hak
        subst hak
        exact hanotin (by
          rw [show a = (a, v).1 from rfl]
          exact List.mem_map_of_mem Prod.fst h')
      simp [findA, hka]
      exact ih hndrest k v h'

theorem keysA_bumpFold :
    ∀ (cs : List Nat) (ind : List (Nat × Int)), (∀ c ∈ cs, c ∈ keysA ind) →
      keysA (cs.foldl bumpA ind) = keysA ind := by
  intro cs
  induction cs with
  | nil => intro ind _; rfl
  | cons c rest ih =>
    intro ind hc
    rw [List.foldl_cons]
    have hkeys : keysA (bumpA ind c) = keysA ind :=
      keysA_insertA_of_mem ind c _ (hc c (List.mem_cons_self _ _))
    rw [ih (bumpA ind c) (fun x hx => hkeys ▸ hc x (List.mem_cons_of_mem _ hx)), hkeys]

theorem nodupKeys_bumpFold :
    ∀ (cs : List Nat) (ind : List (Nat × Int)), NodupKeys ind →
      NodupKeys (cs.foldl bumpA ind) := by
  intro cs
  induction cs with
  | nil => intro ind h; exact h
  | cons c rest ih =>
    intro ind h
    rw [List.foldl_cons]
    exact ih (bumpA ind c) (nodupKeys_insertA ind c _ h)

theorem keysA_map_zero (l : List (Nat × Val)) :
    keysA (l.map (fun p => (p.1, (0 : Int)))) = keysA l := by
  rw [keysA, keysA, List.map_map]
  rfl

theorem allChildren_sub_nodes (g : Graph) (hwf : Wf g) :
    ∀ c ∈ allChildren g, c ∈ keysA g.nodes := by
  intro c hc
  rw [allChildren, List.mem_flatten] at hc
  obtain ⟨l, hl, hcl⟩ := hc
  obtain ⟨p, hp, rfl⟩ := List.mem_map.1 hl
  obtain ⟨w, hw⟩ := List.mem_map.1 hcl
  have : (c, w.2) ∈ p.2 := by
    have := hw.1
    rw [show w = (c, w.2) from by
      ext
      · exact hw.2
      · rfl] at this
    exact this
  exact (containsA_iff _ _).1 (hwf.2.2.2.2.2 p hp (c, w.2) this)

theorem initIndeg_spec (g : Graph) (hwf : Wf g) :
    ∀ n ∈ keysA g.nodes, findA (initIndeg g) n = some ((remIndeg g [] n : Int)) := by
  intro n hn
  have hbase : findA (g.nodes.map (fun p => (p.1, (0 : Int)))) n = some 0 := by
    rw [findA_map_zero]
    rcases hfind : findA g.nodes n with _ | v
    · rw [findA_eq_none_iff] at hfind
      exact absurd hn hfind
    · rfl
  rw [initIndeg_eq_flatten,
    findA_bumpFold (allChildren g) _ n 0 hbase, count_allChildren g hwf n]
  simp

theorem keysA_initIndeg (g : Graph) (hwf : Wf g) :
    keysA (initIndeg g) = keysA g.nodes := by
  rw [initIndeg_eq_flatten,
    keysA_bumpFold (allChildren g) _ (fun c hc => by
      rw [keysA_map_zero]
      exact allChildren_sub_nodes g hwf c hc),
    keysA_map_zero]

theorem nodupKeys_initIndeg (g : Graph) (hwf : Wf g) :
    NodupKeys (initIndeg g) := by
  rw [initIndeg_eq_flatten]
  refine nodupKeys_bumpFold _ _ ?_
  rw [NodupKeys, keysA_map_zero]
  exact hwf.1

theorem mem_keysA_filter {β : Type} (l : List (Nat × β)) (f : Nat × β → Bool)
    (k : Nat) : k ∈ keysA (l.filter f) ↔ ∃ v, (k, v) ∈ l ∧ f (k, v) = true := by
  rw [keysA, List.mem_map]
  constructor
  · rintro ⟨p, hp, rfl⟩
    obtain ⟨hpl, hpf⟩ := List.mem_filter.1 hp
    exact ⟨p.2, by rwa [show (p.1, p.2) = p from rfl], by rwa [show (p.1, p.2) = p from rfl]⟩
  · rintro ⟨v, hvl, hvf⟩
    exact ⟨(k, v), List.mem_filter.2 ⟨hvl, hvf⟩, rfl⟩

/-! ### The Kahn loop master invariant -/

theorem keysA_length {β : Type} (l : List (Nat × β)) :
    (keysA l).length = l.length :=
  List.length_map _ _

theorem kahnLoop_nilq (g : Graph) (fuel : Nat) (indeg : List (Nat × Int))
    (order : List Nat) : kahnLoop g fuel [] indeg order = order := by
  cases fuel <;> rfl

theorem kahnLoop_cons (g : Graph) (fuel node : Nat) (qtail : List Nat)
    (indeg : List (Nat × Int)) (order : List Nat) :
    kahnLoop g (fuel + 1) (node :: qtail) indeg order =
      kahnLoop g fuel ((successors g node).foldl kahnStep (qtail, indeg)).1
        ((successors g node).foldl kahnStep (qtail, indeg)).2 (order ++ [node]) := rfl

/-- Master invariant lemma for Kahn's loop: starting from a consistent
queue/indegree/order state, the loop output is duplicate-free, extends the
given order, respects every edge, and on exit contains exactly the nodes
whose remaining indegree is zero. -/
theorem kahnLoop_master (g : Graph) (hwf : Wf g) :
    ∀ (fuel : Nat) (queue : List Nat) (indeg : List (Nat × Int)) (order : List Nat),
      g.nodes.length + 1 ≤ fuel + order.length →
      order.Nodup →
      queue.Nodup →
      (∀ x ∈ order, x ∉ queue) →
      (∀ x ∈ order, x ∈ keysA g.nodes) →
      (∀ x ∈ queue, x ∈ keysA g.nodes) →
      (∀ n ∈ keysA g.nodes, findA indeg n = some ((remIndeg g order n : Int))) →
      (∀ n ∈ keysA g.nodes, (n ∈ order ∨ n ∈ queue) ↔ remIndeg g order n = 0) →
      (∀ (j x : Nat), order[j]? = some x → ∀ p, EdgeP g p x →
        ∃ i : Nat, i < j ∧ order[i]? = some p) →
      ((kahnLoop g fuel queue indeg order).Nodup ∧
       (∀ x ∈ kahnLoop g fuel queue indeg order, x ∈ keysA g.nodes) ∧
       (∃ ext, kahnLoop g fuel queue indeg order = order ++ ext) ∧
       (∀ (j x : Nat), (kahnLoop g fuel queue indeg order)[j]? = some x →
         ∀ p, EdgeP g p x →
           ∃ i : Nat, i < j ∧ (kahnLoop g fuel queue indeg order)[i]? = some p) ∧
       (∀ n ∈ keysA g.nodes, n ∈ kahnLoop g fuel queue indeg order ↔
         remIndeg g (kahnLoop g fuel queue indeg order) n = 0)) := by
  intro fuel
  induction fuel with
  | zero =>
    intro queue indeg order hfuel hondd _ _ hoN _ _ _ _
    exfalso
    have hsub : order ⊆ keysA g.nodes := hoN
    have hle : order.length ≤ (keysA g.nodes).length :=
      (List.subperm_of_subset hondd hsub).length_le
    rw [keysA_length] at hle
    omega
  | succ fuel ih =>
    intro queue indeg order hfuel hond hqnd hdisj hoN hqN hI3 hI4 hI5
    match queue with
    | [] =>
      rw [kahnLoop_nilq]
      refine ⟨hond, hoN, ⟨[], (List.append_nil order).symm⟩, hI5, ?_⟩
      intro n hn
      have := hI4 n hn
      simpa using this
    | node :: qtail =>
      rw [kahnLoop_cons]
      have hnodeN : node ∈ keysA g.nodes := hqN node (List.mem_cons_self _ _)
      have hnode_noorder : node ∉ order := fun h =>
        hdisj node h (List.mem_cons_self _ _)
      have hnode_zero : remIndeg g order node = 0 :=
        (hI4 node hnodeN).1 (Or.inr (List.mem_cons_self _ _))
      have hnoself : ¬ EdgeP g node node := by
        intro hE
        have := remIndeg_zero_preds g order node hnode_zero node hE
        exact hnode_noorder this
      have hlsnd : (successors g node).Nodup := successors_nodup g hwf node
      obtain ⟨hq2, hind2⟩ := kahnFold_spec (successors g node) qtail indeg hlsnd
      obtain ⟨hnode_notqtail, hqtailnd⟩ := List.nodup_cons.1 hqnd
      -- membership in the newly enqueued suffix
      have hen : ∀ c, c ∈ (successors g node).filter
            (fun c => decide ((findA indeg c).getD 0 - 1 = 0)) ↔
          (EdgeP g node c ∧ remIndeg g order c = 1) := by
        intro c
        rw [List.mem_filter]
        constructor
        · rintro ⟨hcl, hcd⟩
          have hE : EdgeP g node c := (mem_successors g node c).1 hcl
          have hcN : c ∈ keysA g.nodes := EdgeP_target_mem hwf hE
          rw [hI3 c hcN] at hcd
          simp only [Option.getD_some, decide_eq_true_eq] at hcd
          refine ⟨hE, ?_⟩
          omega
        · rintro ⟨hE, hrem⟩
          have hcN : c ∈ keysA g.nodes := EdgeP_target_mem hwf hE
          refine ⟨(mem_successors g node c).2 hE, ?_⟩
          rw [hI3 c hcN, hrem]
          simp
      have hrem_append : ∀ n, EdgeP g node n →
          remIndeg g order n = remIndeg g (order ++ [node]) n + 1 := fun n hE =>
        remIndeg_append_of_edge g hwf order node n hE hnode_noorder
      have hrem_same : ∀ n, ¬ EdgeP g node n →
          remIndeg g (order ++ [node]) n = remIndeg g order n := fun n hE =>
        remIndeg_append_of_not_edge g order node n hE
      -- re-established invariants
      have hond' : (order ++ [node]).Nodup := by
        rw [List.nodup_append]
        exact ⟨hond, List.nodup_singleton _, by
          intro a ha hb
          rw [List.mem_singleton.1 hb] at ha
          exact hnode_noorder ha⟩
      have hq2nd : ((successors g node).foldl kahnStep (qtail, indeg)).1.Nodup := by
        rw [hq2, List.nodup_append]
        refine ⟨hqtailnd, List.Nodup.filter _ hlsnd, ?_⟩
        intro a ha hb
        obtain ⟨hE, hrem⟩ := (hen a).1 hb
        have haN : a ∈ keysA g.nodes := EdgeP_target_mem hwf hE
        have : ¬ (a ∈ order ∨ a ∈ node :: qtail) := by
          rw [hI4 a haN, hrem]
          omega
        exact this (Or.inr (List.mem_cons_of_mem _ ha))
      have hdisj' : ∀ x ∈ order ++ [node],
          x ∉ ((successors g node).foldl kahnStep (qtail, indeg)).1 := by
        intro x hx hmem
        rw [hq2] at hmem
        rcases List.mem_append.1 hmem with hm | hm
        · rcases List.mem_append.1 hx with hx' | hx'
          · exact hdisj x hx' (List.mem_cons_of_mem _ hm)
          · rw [List.mem_singleton.1 hx'] at hm
            exact hnode_notqtail hm
        · obtain ⟨hE, hrem⟩ := (hen x).1 hm
          have hxN : x ∈ keysA g.nodes := EdgeP_target_mem hwf hE
          have hnot : ¬ (x ∈ order ∨ x ∈ node :: qtail) := by
            rw [hI4 x hxN, hrem]
            omega
          rcases List.mem_append.1 hx with hx' | hx'
          · exact hnot (Or.inl hx')
          · rw [List.mem_singleton.1 hx'] at hE
            exact hnoself hE
      have hoN' : ∀ x ∈ order ++ [node], x ∈ keysA g.nodes := by
        intro x hx
        rcases List.mem_append.1 hx with hx' | hx'
        · exact hoN x hx'
        · rw [List.mem_singleton.1 hx']
          exact hnodeN
      have hqN' : ∀ x ∈ ((successors g node).foldl kahnStep (qtail, indeg)).1,
          x ∈ keysA g.nodes := by
        intro x hx
        rw [hq2] at hx
        rcases List.mem_append.1 hx with hm | hm
        · exact hqN x (List.mem_cons_of_mem _ hm)
        · exact EdgeP_target_mem hwf ((hen x).1 hm).1
      have hI3' : ∀ n ∈ keysA g.nodes,
          findA ((successors g node).foldl kahnStep (qtail, indeg)).2 n =
            some ((remIndeg g (order ++ [node]) n : Int)) := by
        intro n hn
        rw [hind2 n]
        by_cases hnl : n ∈ successors g node
        · have hE : EdgeP g node n := (mem_successors g node n).1 hnl
          rw [if_pos hnl, hI3 n hn]
          have := hrem_append n hE
          simp only [Option.getD_some]
          congr 1
          omega
        · have hE : ¬ EdgeP g node n := fun h => hnl ((mem_successors g node n).2 h)
          rw [if_neg hnl, hI3 n hn, hrem_same n hE]
      have hI4' : ∀ n ∈ keysA g.nodes,
          (n ∈ order ++ [node] ∨
            n ∈ ((successors g node).foldl kahnStep (qtail, indeg)).1) ↔
          remIndeg g (order ++ [node]) n = 0 := by
        intro n hn
        by_cases hnn : n = node
        · subst hnn
          have hrem' : remIndeg g (order ++ [n]) n = 0 := by
            rw [hrem_same n hnoself]
            exact hnode_zero
          rw [hrem']
          simp
        · rw [hq2]
          by_cases hE : EdgeP g node n
          · have hrem := hrem_append n hE
            have hnot : ¬ (n ∈ order ∨ n ∈ node :: qtail) := by
              rw [hI4 n hn]
              omega
            constructor
            · intro hmem
              rcases hmem with hm | hm
              · rcases List.mem_append.1 hm with hm' | hm'
                · exact absurd (Or.inl hm') hnot
                · exact absurd (List.mem_singleton.1 hm') hnn
              · rcases List.mem_append.1 hm with hm' | hm'
                · exact absurd (Or.inr (List.mem_cons_of_mem _ hm')) hnot
                · have := ((hen n).1 hm').2
                  omega
            · intro h0
              refine Or.inr (List.mem_append.2 (Or.inr ((hen n).2 ⟨hE, ?_⟩)))
              omega
          · have hrem := hrem_same n hE
            rw [hrem, ← hI4 n hn]
            constructor
            · intro hmem
              rcases hmem with hm | hm
              · rcases List.mem_append.1 hm with hm' | hm'
                · exact Or.inl hm'
                · exact absurd (List.mem_singleton.1 hm') hnn
              · rcases List.mem_append.1 hm with hm' | hm'
                · exact Or.inr (List.mem_cons_of_mem _ hm')
                · exact absurd ((hen n).1 hm').1 hE
            · intro hmem
              rcases hmem with hm | hm
              · exact Or.inl (List.mem_append.2 (Or.inl hm))
              · rcases List.mem_cons.1 hm with hm' | hm'
                · exact absurd hm' hnn
                · exact Or.inr (List.mem_append.2 (Or.inl hm'))
      have hI5' : ∀ (j x : Nat), (order ++ [node])[j]? = some x → ∀ p, EdgeP g p x →
          ∃ i : Nat, i < j ∧ (order ++ [node])[i]? = some p := by
        intro j x hj p hp
        rcases Nat.lt_trichotomy j order.length with hlt | heq | hgt
        · rw [List.getElem?_append_left hlt] at hj
          obtain ⟨i, hij, hi⟩ := hI5 j x hj p hp
          exact ⟨i, hij, by
            rw [List.getElem?_append_left (Nat.lt_trans hij hlt)]
            exact hi⟩
        · subst heq
          rw [List.getElem?_concat_length] at hj
          have hxn : x = node := by
            injection hj with h'
            exact h'.symm
          subst hxn
          have hpord : p ∈ order :=
            remIndeg_zero_preds g order x hnode_zero p hp
          obtain ⟨i, hi⟩ := List.getElem?_of_mem hpord
          have hilen : i < order.length := by
            rcases List.getElem?_eq_some.1 hi with ⟨h', _⟩
            exact h'
          exact ⟨i, hilen, by
            rw [List.getElem?_append_left hilen]
            exact hi⟩
        · rw [List.getElem?_eq_none (by
            rw [List.length_append, List.length_singleton]
            omega)] at hj
          exact absurd hj (Option.noConfusion)
      obtain ⟨c1, c2, c3, c4, c5⟩ := ih
        ((successors g node).foldl kahnStep (qtail, indeg)).1
        ((successors g node).foldl kahnStep (qtail, indeg)).2
        (order ++ [node])
        (by
          rw [List.length_append, List.length_singleton] at *
          omega)
        hond' hq2nd hdisj' hoN' hqN' hI3' hI4' hI5'
      refine ⟨c1, c2, ?_, c4, c5⟩
      obtain ⟨ext, hext⟩ := c3
      exact ⟨node :: ext, by rw [hext, List.append_assoc, List.singleton_append]⟩

/-! ### From an exhausted queue to a cycle, and from a cycle to failure -/

/-- A nonempty finite set in which every member has an in-neighbour inside
the set must contain a directed cycle (follow in-edges and apply the
pigeonhole principle). -/
theorem cycle_of_closed_preds (g : Graph) (R : Finset Nat) (hne : R.Nonempty)
    (hstep : ∀ n ∈ R, ∃ p ∈ R, EdgeP g p n) : HasCycle g := by
  classical
  set f : Nat → Nat := fun n => if h : n ∈ R then (hstep n h).choose else n with hf
  have hfR : ∀ n ∈ R, f n ∈ R ∧ EdgeP g (f n) n := by
    intro n hn
    rw [hf]
    simp only [dif_pos hn]
    obtain ⟨hmem, hE⟩ := (hstep n hn).choose_spec
    exact ⟨hmem, hE⟩
  obtain ⟨x0, hx0⟩ := hne
  have hiter : ∀ k, f^[k] x0 ∈ R := by
    intro k
    induction k with
    | zero => exact hx0
    | succ k ihk =>
      rw [Function.iterate_succ_apply']
      exact (hfR _ ihk).1
  have hchain : ∀ k, EdgeP g (f^[k + 1] x0) (f^[k] x0) := by
    intro k
    rw [Function.iterate_succ_apply']
    exact (hfR _ (hiter k)).2
  have htg : ∀ d a, Relation.TransGen (EdgeP g) (f^[a + d + 1] x0) (f^[a] x0) := by
    intro d
    induction d with
    | zero => intro a; exact Relation.TransGen.single (hchain a)
    | succ d ihd =>
      intro a
      have h1 : EdgeP g (f^[a + d + 1 + 1] x0) (f^[a + d + 1] x0) := hchain (a + d + 1)
      have h2 := Relation.TransGen.head h1 (ihd a)
      rw [show a + (d + 1) + 1 = a + d + 1 + 1 from by omega]
      exact h2
  obtain ⟨i, hi, j, hj, hij, heq⟩ :=
    Finset.exists_ne_map_eq_of_card_lt_of_maps_to
      (s := Finset.range (R.card + 1)) (t := R) (by simp)
      (fun k _ => hiter k)
  rcases Ne.lt_or_lt hij with hlt | hlt
  · refine ⟨f^[j] x0, ?_⟩
    have := htg (j - i - 1) i
    rw [show i + (j - i - 1) + 1 = j from by omega] at this
    rw [heq] at this
    exact this
  · refine ⟨f^[i] x0, ?_⟩
    have := htg (i - j - 1) j
    rw [show j + (i - j - 1) + 1 = i from by omega] at this
    rw [← heq] at this
    exact this

theorem getElem?_inj_nodup (l : List Nat) (hnd : l.Nodup) (i j a : Nat)
    (hi : l[i]? = some a) (hj : l[j]? = some a) : i = j := by
  rcases List.getElem?_eq_some.1 hi with ⟨hi', hieq⟩
  rcases List.getElem?_eq_some.1 hj with ⟨hj', hjeq⟩
  exact (List.Nodup.getElem_inj_iff hnd).1 (hieq.trans hjeq.symm)

theorem transGen_positions (g : Graph) (ord : List Nat) (hnd : ord.Nodup)
    (htopo : ∀ u v, EdgeP g u v →
      ∃ i j : Nat, i < j ∧ ord[i]? = some u ∧ ord[j]? = some v) :
    ∀ a b, Relation.TransGen (EdgeP g) a b →
      ∃ i j : Nat, i < j ∧ ord[i]? = some a ∧ ord[j]? = some b := by
  intro a b h
  induction h with
  | single hE => exact htopo _ _ hE
  | tail htrans hE ihr =>
    obtain ⟨i, j, hij, hi, hj⟩ := ihr
    obtain ⟨i2, j2, hij2, hi2, hj2⟩ := htopo _ _ hE
    have hsame : j = i2 := getElem?_inj_nodup ord hnd j i2 _ hj hi2
    exact ⟨i, j2, by omega, hi, hj2⟩

/-- The order `top_sort` computes, isolated from the final length check. -/
def kahnOrder (g : Graph) : List Nat :=
  kahnLoop g (g.nodes.length + 1)
    ((keysA ((initIndeg g).filter (fun p => p.2 == 0))).insertionSort (· ≤ ·))
    (initIndeg g) []

theorem top_sort_eq (g : Graph) :
    top_sort g = if (kahnOrder g).length = g.nodes.length
      then .ok (kahnOrder g) else .error .CycleDetected := rfl

theorem kahnOrder_spec (g : Graph) (hwf : Wf g) :
    (kahnOrder g).Nodup ∧
    (∀ x ∈ kahnOrder g, x ∈ keysA g.nodes) ∧
    (∀ (j x : Nat), (kahnOrder g)[j]? = some x → ∀ p, EdgeP g p x →
      ∃ i : Nat, i < j ∧ (kahnOrder g)[i]? = some p) ∧
    (∀ n ∈ keysA g.nodes, n ∈ kahnOrder g ↔ remIndeg g (kahnOrder g) n = 0) := by
  have hindnd : NodupKeys (initIndeg g) := nodupKeys_initIndeg g hwf
  have hq0nd : ((keysA ((initIndeg g).filter (fun p => p.2 == 0))).insertionSort
      (· ≤ ·)).Nodup := by
    refine (List.perm_insertionSort _ _).nodup_iff.2 ?_
    refine List.Nodup.sublist ?_ hindnd
    exact List.Sublist.map _ (List.filter_sublist _)
  have hq0mem : ∀ x, x ∈ (keysA ((initIndeg g).filter (fun p => p.2 == 0))).insertionSort
      (· ≤ ·) ↔ (∃ v, (x, v) ∈ initIndeg g ∧ v = 0) := by
    intro x
    rw [List.mem_insertionSort, mem_keysA_filter]
    constructor
    · rintro ⟨v, hvl, hvf⟩
      exact ⟨v, hvl, by simpa using hvf⟩
    · rintro ⟨v, hvl, hvf⟩
      exact ⟨v, hvl, by simpa using hvf⟩
  have hq0N : ∀ x ∈ (keysA ((initIndeg g).filter (fun p => p.2 == 0))).insertionSort
      (· ≤ ·), x ∈ keysA g.nodes := by
    intro x hx
    obtain ⟨v, hvl, _⟩ := (hq0mem x).1 hx
    rw [← keysA_initIndeg g hwf]
    exact List.mem_map_of_mem Prod.fst hvl
  have hI40 : ∀ n ∈ keysA g.nodes,
      (n ∈ ([] : List Nat) ∨
        n ∈ (keysA ((initIndeg g).filter (fun p => p.2 == 0))).insertionSort (· ≤ ·)) ↔
      remIndeg g [] n = 0 := by
    intro n hn
    rw [hq0mem n]
    constructor
    · rintro (h | ⟨v, hvl, hvf⟩)
      · exact absurd h (List.not_mem_nil n)
      · have := findA_eq_of_mem_nodup (initIndeg g) hindnd n v hvl
        rw [initIndeg_spec g hwf n hn] at this
        injection this with h'
        subst hvf
        exact_mod_cast h'
    · intro h0
      refine Or.inr ⟨0, ?_, rfl⟩
      have := initIndeg_spec g hwf n hn
      rw [h0] at this
      exact mem_of_findA_eq_some (by simpa using this)
  obtain ⟨c1, c2, c3, c4, c5⟩ := kahnLoop_master g hwf (g.nodes.length + 1)
    ((keysA ((initIndeg g).filter (fun p => p.2 == 0))).insertionSort (· ≤ ·))
    (initIndeg g) []
    (by simp)
    (List.nodup_nil)
    hq0nd
    (fun x hx => absurd hx (List.not_mem_nil x))
    (fun x hx => absurd hx (List.not_mem_nil x))
    hq0N
    (fun n hn => initIndeg_spec g hwf n hn)
    hI40
    (fun j x hj => absurd hj (by simp))
  exact ⟨c1, c2, c4, c5⟩

theorem kahnOrder_perm (g : Graph) (hwf : Wf g)
    (hlen : (kahnOrder g).length = g.nodes.length) :
    (kahnOrder g).Perm (keysA g.nodes) := by
  obtain ⟨c1, c2, _, _⟩ := kahnOrder_spec g hwf
  refine (List.subperm_of_subset c1 c2).perm_of_length_le ?_
  rw [keysA_length, hlen]

theorem kahnOrder_topo (g : Graph) (hwf : Wf g)
    (hlen : (kahnOrder g).length = g.nodes.length) :
    ∀ u v, EdgeP g u v →
      ∃ i j : Nat, i < j ∧ (kahnOrder g)[i]? = some u ∧ (kahnOrder g)[j]? = some v := by
  obtain ⟨c1, c2, c4, c5⟩ := kahnOrder_spec g hwf
  intro u v hE
  have hvN : v ∈ keysA g.nodes := EdgeP_target_mem hwf hE
  have hv : v ∈ kahnOrder g := ((kahnOrder_perm g hwf hlen).mem_iff).2 hvN
  obtain ⟨j, hj⟩ := List.getElem?_of_mem hv
  obtain ⟨i, hij, hi⟩ := c4 j v hj u hE
  exact ⟨i, j, hij, hi, hj⟩

theorem top_sort_complete (g : Graph) (hwf : Wf g)
    (hlen : ¬ (kahnOrder g).length = g.nodes.length) : HasCycle g := by
  obtain ⟨c1, c2, c4, c5⟩ := kahnOrder_spec g hwf
  set R : Finset Nat := (keysA g.nodes).toFinset \ (kahnOrder g).toFinset with hR
  have hne : R.Nonempty := by
    rw [Finset.sdiff_nonempty]
    intro hsubF
    have hsub : keysA g.nodes ⊆ kahnOrder g := by
      intro x hx
      exact List.mem_toFinset.1 (hsubF (List.mem_toFinset.2 hx))
    have hle := (List.subperm_of_subset hwf.1 hsub).length_le
    have hle2 := (List.subperm_of_subset c1 c2).length_le
    rw [keysA_length] at hle hle2
    omega
  refine cycle_of_closed_preds g R hne ?_
  intro n hn
  rw [hR, Finset.mem_sdiff, List.mem_toFinset, List.mem_toFinset] at hn
  obtain ⟨hnN, hnord⟩ := hn
  have hrem : remIndeg g (kahnOrder g) n ≠ 0 := by
    intro h0
    exact hnord ((c5 n hnN).2 h0)
  obtain ⟨p, hE, hpord, hpedges⟩ := remIndeg_pos_preds g (kahnOrder g) n hrem
  have hpN : p ∈ keysA g.nodes := (containsA_iff _ _).1 (hwf.2.2.2.1 p hpedges)
  refine ⟨p, ?_, hE⟩
  rw [hR, Finset.mem_sdiff, List.mem_toFinset, List.mem_toFinset]
  exact ⟨hpN, hpord⟩

theorem top_sort_sound (g : Graph) (hwf : Wf g)
    (hlen : (kahnOrder g).length = g.nodes.length) : ¬ HasCycle g := by
  rintro ⟨x, hx⟩
  obtain ⟨c1, _, _, _⟩ := kahnOrder_spec g hwf
  obtain ⟨i, j, hij, hi, hj⟩ := transGen_positions g (kahnOrder g) c1
    (kahnOrder_topo g hwf hlen) x x hx
  have := getElem?_inj_nodup (kahnOrder g) c1 i j x hi hj
  omega

theorem top_sort_error_iff (g : Graph) (hwf : Wf g) :
    top_sort g = .error GError.CycleDetected ↔ HasCycle g := by
  rw [top_sort_eq]
  by_cases hlen : (kahnOrder g).length = g.nodes.length
  · rw [if_pos hlen]
    constructor
    · intro h
      exact absurd h (by simp)
    · intro hcyc
      exact absurd hcyc (top_sort_sound g hwf hlen)
  · rw [if_neg hlen]
    exact ⟨fun _ => top_sort_complete g hwf hlen, fun _ => rfl⟩

theorem top_sort_ok_spec (g : Graph) (hwf : Wf g) (order : List Nat)
    (h : top_sort g = .ok order) :
    order.Perm (get_nodes g) ∧
    (∀ u v, EdgeP g u v →
      ∃ i j : Nat, i < j ∧ order[i]? = some u ∧ order[j]? = some v) := by
  rw [top_sort_eq] at h
  by_cases hlen : (kahnOrder g).length = g.nodes.length
  · rw [if_pos hlen] at h
    injection h with h'
    subst h'
    exact ⟨kahnOrder_perm g hwf hlen, kahnOrder_topo g hwf hlen⟩
  · rw [if_neg hlen] at h
    exact absurd h (by simp)

/-! ### Claim C4 -/

/-- C4: on any well-formed graph (guarded or not), `top_sort()` raises
`CycleDetected` exactly when the stored edges contain a directed cycle, and
a successful run returns every node exactly once with each edge's source
before its target. -/
theorem C4_theorem (g : Graph) (hwf : Wf g) :
    (top_sort g = .error GError.CycleDetected ↔ HasCycle g) ∧
    (∀ order, top_sort g = .ok order →
      order.Perm (get_nodes g) ∧
      (∀ u v, EdgeP g u v →
        ∃ i j : Nat, i < j ∧ order[i]? = some u ∧ order[j]? = some v)) :=
  ⟨top_sort_error_iff g hwf, fun order h => top_sort_ok_spec g hwf order h⟩

/-- C4 witnessed on concrete scenario 4: the unguarded graph with edges
X→Y, Y→Z, Z→X is reported cyclic by `top_sort`. -/
theorem C4_witness :
    HasCycle (add_edge (add_edge (add_edge Graph.empty 0 1 none) 1 2 none) 2 0 none) :=
  (C4_theorem (add_edge (add_edge (add_edge Graph.empty 0 1 none) 1 2 none) 2 0 none)
    (by decide)).1.1 rfl

/-! ### Adding a guarded edge preserves acyclicity -/

theorem rtg_add_edge_last (g : Graph) (u v : Nat) (w : Val) :
    ∀ a b, Relation.ReflTransGen (EdgeP (add_edge g u v w)) a b →
      Relation.ReflTransGen (EdgeP g) a b ∨ Relation.ReflTransGen (EdgeP g) v b := by
  intro a b h
  induction h with
  | refl => exact Or.inl Relation.ReflTransGen.refl
  | tail hab hedge ih =>
    rcases (EdgeP_add_edge g u v w _ _).1 hedge with ⟨hbu, hcv⟩ | hE
    · subst hcv
      exact Or.inr Relation.ReflTransGen.refl
    · rcases ih with ih' | ih'
      · exact Or.inl (Relation.ReflTransGen.tail ih' hE)
      · exact Or.inr (Relation.ReflTransGen.tail ih' hE)

theorem tg_add_edge_first (g : Graph) (u v : Nat) (w : Val) :
    ∀ a b, Relation.TransGen (EdgeP (add_edge g u v w)) a b →
      Relation.TransGen (EdgeP g) a b ∨
        (Relation.ReflTransGen (EdgeP g) a u ∧
          Relation.ReflTransGen (EdgeP (add_edge g u v w)) v b) := by
  intro a b h
  induction h using Relation.TransGen.head_induction_on with
  | base hE =>
    rcases (EdgeP_add_edge g u v w _ _).1 hE with ⟨hau, hbv⟩ | hE'
    · subst hau
      subst hbv
      exact Or.inr ⟨Relation.ReflTransGen.refl, Relation.ReflTransGen.refl⟩
    · exact Or.inl (Relation.TransGen.single hE')
  | ih hac htg ihr =>
    rcases (EdgeP_add_edge g u v w _ _).1 hac with ⟨hau, hcv⟩ | hE'
    · subst hau
      subst hcv
      exact Or.inr ⟨Relation.ReflTransGen.refl, htg.to_reflTransGen⟩
    · rcases ihr with ih' | ⟨ih1, ih2⟩
      · exact Or.inl (Relation.TransGen.head hE' ih')
      · exact Or.inr ⟨Relation.ReflTransGen.head hE' ih1, ih2⟩

theorem acyclic_add_edge (g : Graph) (u v : Nat) (w : Val)
    (hguard : ¬ Relation.ReflTransGen (EdgeP g) v u)
    (hacyclic : ¬ HasCycle g) : ¬ HasCycle (add_edge g u v w) := by
  rintro ⟨x, hx⟩
  rcases tg_add_edge_first g u v w x x hx with htg | ⟨hxu, hvx⟩
  · exact hacyclic ⟨x, htg⟩
  · rcases rtg_add_edge_last g u v w v x hvx with hvx' | hvx'
    · exact hguard (hvx'.trans hxu)
    · exact hguard (hvx'.trans hxu)

/-- States reachable from the empty graph through `add_node` and successful
guarded `DAG.add_edge` calls. -/
inductive BuiltDAG : Graph → Prop where
  | empty : BuiltDAG Graph.empty
  | addNode (g : Graph) (n : Nat) (val : Val) :
      BuiltDAG g → BuiltDAG (add_node g n val)
  | addEdge (g g' : Graph) (u v : Nat) (w : Val) :
      BuiltDAG g → DAG.add_edge g u v w = (g', none) → BuiltDAG g'

theorem BuiltDAG_wf_acyclic : ∀ g, BuiltDAG g → Wf g ∧ ¬ HasCycle g := by
  intro g h
  induction h with
  | empty =>
    refine ⟨Wf_empty, ?_⟩
    rintro ⟨x, hx⟩
    rcases Relation.TransGen.head'_iff.1 hx with ⟨c, hc, _⟩
    exact Bool.noConfusion hc
  | addNode g n val hb ihb =>
    refine ⟨Wf_add_node g n val ihb.1, ?_⟩
    rintro ⟨x, hx⟩
    refine ihb.2 ⟨x, ?_⟩
    have he : EdgeP (add_node g n val) = EdgeP g := by
      funext a b
      exact propext (EdgeP_add_node g n val a b)
    rwa [he] at hx
  | addEdge g g' u v w hb heq ihb =>
    rw [DAG_add_edge_eq] at heq
    by_cases hp : has_path (add_node (add_node g u none) v none) v u = true
    · rw [if_pos hp] at heq
      injection heq with h1 h2
      exact absurd h2 (by simp)
    · rw [if_neg hp] at heq
      injection heq with h1 h2
      have hguard : ¬ Relation.ReflTransGen (EdgeP g) v u := by
        intro hr
        refine hp ((has_path_iff_reach _ v u).2 ?_)
        rw [Reach_add_node, Reach_add_node]
        exact hr
      rw [← h1]
      exact ⟨Wf_add_edge g u v w ihb.1, acyclic_add_edge g u v w hguard ihb.2⟩

/-! ### Claim C1 -/

/-- C1: after any sequence of successful guarded `add_edge` calls (and
`add_node` calls), `top_sort()` succeeds and returns an ordering of all
nodes in which `u` appears before `v` for every stored edge u→v. -/
theorem C1_theorem (g : Graph) (h : BuiltDAG g) :
    ∃ order, top_sort g = .ok order ∧ order.Perm (get_nodes g) ∧
      (∀ u v, EdgeP g u v →
        ∃ i j : Nat, i < j ∧ order[i]? = some u ∧ order[j]? = some v) := by
  obtain ⟨hwf, hac⟩ := BuiltDAG_wf_acyclic g h
  by_cases hlen : (kahnOrder g).length = g.nodes.length
  · have hok : top_sort g = .ok (kahnOrder g) := by
      rw [top_sort_eq, if_pos hlen]
    obtain ⟨hperm, htopo⟩ := top_sort_ok_spec g hwf _ hok
    exact ⟨kahnOrder g, hok, hperm, htopo⟩
  · exfalso
    refine hac ((top_sort_error_iff g hwf).1 ?_)
    rw [top_sort_eq, if_neg hlen]

/-- C1 witnessed on concrete scenario 1: the guarded inserts A→B, B→C, A→C
all succeed and `top_sort` then succeeds. -/
theorem C1_witness :
    ∃ order,
      top_sort (add_edge (add_edge (add_edge Graph.empty 0 1 none) 1 2 none)
        0 2 none) = .ok order ∧
      order.Perm (get_nodes (add_edge (add_edge (add_edge Graph.empty 0 1 none)
        1 2 none) 0 2 none)) ∧
      (∀ u v, EdgeP (add_edge (add_edge (add_edge Graph.empty 0 1 none) 1 2 none)
          0 2 none) u v →
        ∃ i j : Nat, i < j ∧ order[i]? = some u ∧ order[j]? = some v) :=
  C1_theorem _ (BuiltDAG.addEdge
    (add_edge (add_edge Graph.empty 0 1 none) 1 2 none)
    (add_edge (add_edge (add_edge Graph.empty 0 1 none) 1 2 none) 0 2 none) 0 2 none
    (BuiltDAG.addEdge (add_edge Graph.empty 0 1 none)
      (add_edge (add_edge Graph.empty 0 1 none) 1 2 none) 1 2 none
      (BuiltDAG.addEdge Graph.empty (add_edge Graph.empty 0 1 none) 0 1 none
        BuiltDAG.empty (by decide))
      (by decide))
    (by decide))

end StudentCode
